import Mathlib

/-!
Verification of the chromosight pattern-detection engine
(chromosight/utils/detection.py): a shallow embedding of the sparse
correlation, focus labelling, picking, validation and iterative
exploration code, together with theorems about the specified behaviour.
Python/numpy floats are modelled by exact rationals; numpy inf values
arising from division by zero are marked by Option none; scipy sparse
matrices appear either as entry lists in storage order or as total
functions from coordinates to values.
-/

namespace Chromosight


/-- A pixel coordinate (row, column) of a sparse matrix entry. -/
abbrev Pix := Nat × Nat


/-- Whether two entries stay in the same focus when consecutive in a sorted
scan: both the row shift and the column shift are at most 1 (absolute value of
the index differences, as in get_1d_foci_transition). -/
def pixAdj (p q : Pix) : Bool :=
  decide ((max p.1 q.1 - min p.1 q.1 ≤ 1) ∧ (max p.2 q.2 - min p.2 q.2 ≤ 1))


/-- Horizontal-pass adjacency between consecutive nonzero entries in the
matrix storage order (entries sorted by row in the pipeline). -/
def horiEdges (pts : List Pix) : List (Nat × Nat) :=
  (List.range (pts.length - 1)).filterMap fun i =>
    if pixAdj (pts.getD i (0, 0)) (pts.getD (i + 1) (0, 0)) then some (i, i + 1) else none


/-- Stable insertion of an element into a sorted list. -/
def insertLe {α : Type} (le : α → α → Bool) (a : α) : List α → List α
  | [] => [a]
  | b :: bs => if le a b then a :: b :: bs else b :: insertLe le a bs


/-- Stable insertion sort; used to model the canonical index orderings
produced by scipy sparse format conversions and numpy sorting. -/
def sortLe {α : Type} (le : α → α → Bool) : List α → List α
  | [] => []
  | a :: as => insertLe le a (sortLe le as)


/-- Ordering of entries of the transposed matrix after tocsr().tocoo():
sorted by column, then by row. -/
def colLe (x y : Nat × Pix) : Bool :=
  decide (x.2.2 < y.2.2 ∨ (x.2.2 = y.2.2 ∧ x.2.1 ≤ y.2.1))


/-- Entry indices paired with their pixels, in transposed (column-major)
order; the first component plays the role of trans_ids.data. -/
def colOrder (pts : List Pix) : List (Nat × Pix) :=
  sortLe colLe pts.enum


/-- Vertical-pass adjacency between consecutive entries of the transposed
matrix, translated back to original entry indices via trans_ids. -/
def vertEdges (pts : List Pix) : List (Nat × Nat) :=
  let ord := colOrder pts
  (List.range (ord.length - 1)).filterMap fun k =>
    let a := ord.getD k (0, (0, 0))
    let b := ord.getD (k + 1) (0, (0, 0))
    if pixAdj a.2 b.2 then some (a.1, b.1) else none


/-- All adjacency-matrix edges filled by the two fill_adjacency_1d passes. -/
def rawEdges (pts : List Pix) : List (Nat × Nat) :=
  horiEdges pts ++ vertEdges pts


/-- One sweep of minimum-label propagation along the (undirected) edges. -/
def propagateEdges (edges : List (Nat × Nat)) (r : List Nat) : List Nat :=
  edges.foldl
    (fun r e =>
      let m := min (r.getD e.1 0) (r.getD e.2 0)
      (r.set e.1 m).set e.2 m)
    r


/-- Connected components of the n-vertex graph given by the edges: each
vertex is mapped to the least vertex index of its (weak) component, the
result of scipy connected_components. n propagation sweeps reach the
fixpoint since no path is longer than n. -/
def compReps (n : Nat) (edges : List (Nat × Nat)) : List Nat :=
  (List.range n).foldl (fun r _ => propagateEdges edges r) (List.range n)


/-- Distinct values of a list in order of first occurrence. -/
def firstOccs (l : List Nat) : List Nat :=
  l.foldl (fun acc v => if v ∈ acc then acc else acc ++ [v]) []


/-- Label rank of a component representative: scipy connected_components
numbers components in order of first appearance along the vertex scan. -/
def rankOf (l : List Nat) (v : Nat) : Nat :=
  (firstOccs l).indexOf v


/-- Component representative of every entry of the candidate list. -/
def rawReps (pts : List Pix) : List Nat :=
  compReps pts.length (rawEdges pts)


/-- Number of foci found by connected_components, before any size filter. -/
def numFociOf (pts : List Pix) : Nat :=
  (firstOccs (rawReps pts)).length


/-- 1-based focus labels of every entry (foci += 1), before the small-focus
removal loop. -/
def rawLabels (pts : List Pix) : List Nat :=
  (rawReps pts).map fun v => rankOf (rawReps pts) v + 1


/-- label_connected_pixels_sparse: labels the foci of 8-way connected
nonzero pixels of a sparse boolean matrix, removes foci with fewer than
min_focus_size members, and returns the focus count found by
connected_components together with the labelled sparse matrix (as the list
of surviving (pixel, label) entries in storage order). -/
def label_connected_pixels_sparse (pts : List Pix) (minFocusSize : Nat) : Nat × List (Pix × Nat) :=
  let foci := rawLabels pts
  let foci2 := foci.map fun v => if foci.count v < minFocusSize then 0 else v
  (numFociOf pts, (pts.zip foci2).filter fun pr => pr.2 ≠ 0)


/-- Modelled from the spec: np.median (numpy, external collaborator) — the
middle element of the sorted data, or the mean of the two middle elements
for even length. -/
def medianQ (l : List ℚ) : ℚ :=
  let s := sortLe (fun a b => decide (a ≤ b)) l
  if l.length = 0 then 0
  else if l.length % 2 = 1 then s.getD (l.length / 2) 0
  else (s.getD (l.length / 2 - 1) 0 + s.getD (l.length / 2) 0) / 2


/-- Absolute value on ℚ, written as a conditional so that concrete
evaluations normalize. -/
def absQ (x : ℚ) : ℚ := if x < 0 then -x else x


/-- Modelled from the spec: preproc.mad (chromosight.utils.preprocessing is
not part of src/) — "MAD: median absolute deviation, a robust dispersion
statistic used for thresholding": median of absolute deviations from the
median. -/
def madQ (l : List ℚ) : ℚ :=
  medianQ (l.map fun x => absQ (x - medianQ l))


/-- Value of the sparse matrix given by its entry list at one pixel (0 when
the pixel holds no stored entry), as a csr lookup mat[i, j]. -/
def lookupVal (entries : List (Pix × ℚ)) (p : Pix) : ℚ :=
  match entries.find? (fun e => e.1 = p) with
  | some e => e.2
  | none => 0


/-- Candidate pixels surviving the picker threshold: the correlation data is
thresholded (values below the threshold set to 0), made binary, and zero
entries are eliminated, leaving the stored entries with value ≥ threshold
(and nonzero), in storage order. -/
def pickerCandidates (entries : List (Pix × ℚ)) (precision : ℚ) : List Pix :=
  let thres := medianQ (entries.map (·.2)) + precision * madQ (entries.map (·.2))
  ((entries.filter fun e => ¬ (e.2 < thres) ∧ e.2 ≠ 0).map (·.1))


/-- First index of the maximum value, scanning with a running best that is
replaced only on strict improvement (np.argmax tie-breaking). -/
def argmaxFrom (bi : Nat) (bv : ℚ) (i : Nat) : List ℚ → Nat
  | [] => bi
  | x :: xs => if bv < x then argmaxFrom i x (i + 1) xs else argmaxFrom bi bv (i + 1) xs


/-- np.argmax over a list of values: index of the first occurrence of the
maximum (0 for an empty list). -/
def argmaxIdx : List ℚ → Nat
  | [] => 0
  | x :: xs => argmaxFrom 0 x 1 xs


/-- The member pixels of one focus, in storage order of the labelled matrix. -/
def focusPixels (labelled : List (Pix × Nat)) (lab : Nat) : List Pix :=
  (labelled.filter fun pr => pr.2 = lab).map (·.1)


/-- The representative pixel the picker chooses for one focus: the pixel
whose correlation value is maximal within the focus, at the first position
np.argmax reports. -/
def chooseRep (entries : List (Pix × ℚ)) (labelled : List (Pix × Nat)) (lab : Nat) : Pix :=
  let ps := focusPixels labelled lab
  ps.getD (argmaxIdx (ps.map (lookupVal entries))) (0, 0)


/-- np.unique: sorted distinct values. -/
def uniqueSorted (l : List Nat) : List Nat :=
  firstOccs (sortLe (fun a b => decide (a ≤ b)) l)


/-- picker: thresholds the correlation matrix (given by its stored entries
in row-major order) at median + precision * MAD, labels the connected foci
of the surviving candidates, and selects one best pixel per surviving
focus, writing it at the focus rank into a zero-initialised coordinate
array of num_foci rows. Returns none when no candidate pixel survives.
(The unused `matrix` parameter of the source is omitted.) -/
def picker (entries : List (Pix × ℚ)) (precision : ℚ) : Option (List Pix) :=
  let cands := pickerCandidates entries precision
  if cands.length > 0 then
    let r := label_connected_pixels_sparse cands 2
    let uniques := uniqueSorted (r.2.map (·.2))
    some (uniques.enum.foldl
      (fun acc rl => acc.set rl.1 (chooseRep entries r.2 rl.2))
      (List.replicate r.1 ((0, 0) : Pix)))
  else none


/-- A dense 2D numeric array (or a sparse matrix read through full
indexing), as a function from (row, col) to value. -/
abbrev F := Nat → Nat → ℚ


/-- The row (or column) bin indices of the pattern window around a
coordinate: range(p - half + 1, p + half). -/
def winRange (p half : Nat) : List Nat :=
  List.range' (p - half + 1) (2 * half - 1)


/-- The dense window of matrix values at the given row and column indices
(matrix[np.ix_(rows, cols)].todense()). -/
def windowOf (matrix : F) (rows cols : List Nat) : List (List ℚ) :=
  rows.map fun r => cols.map fun c => matrix r c


/-- Number of window bins that are not in the detectable set:
len(win) - len(set(win) & detectable). -/
def nBadBins (win : List Nat) (detectable : List Nat) : Nat :=
  win.length - (win.filter fun r => r ∈ detectable).length


/-- Result of processing one candidate coordinate in validate_patterns:
whether it is kept (false means blacklisted), the table row
(bin1, bin2, score) and the pattern window. -/
def validateOne (sm sn : Nat) (matrix conv : F) (detRows detCols : List Nat)
    (winH winW : Nat) (maxPct : ℚ) (c : Nat × Nat) :
    Bool × (Nat × Nat × ℚ) × List (List ℚ) :=
  let halfH := winH / 2 + 1
  let halfW := winW / 2 + 1
  let p1 := if c.1 > c.2 then c.2 else c.1
  let p2 := if c.1 > c.2 then c.1 else c.2
  let zeroWin := List.replicate winH (List.replicate winW (0 : ℚ))
  if halfH ≤ p1 ∧ p1 + halfH + 1 < sm ∧ halfW ≤ p2 ∧ p2 + halfW + 1 < sn then
    let winRows := winRange p1 halfH
    let winCols := winRange p2 halfW
    let w := windowOf matrix winRows winCols
    let nRows := winRows.length
    let nCols := winCols.length
    let totPixels := nRows * nCols
    let nBadRows := nBadBins winRows detRows
    let nBadCols := nBadBins winCols detCols
    let totUndetectedPixels := nBadRows * nCols + nBadCols * nRows - nBadRows * nBadCols
    let totZeroPixels := w.flatten.count 0
    let totMissingPixels := max totUndetectedPixels totZeroPixels
    if (totMissingPixels : ℚ) / (totPixels : ℚ) < maxPct / 100 then
      (true, (c.1, c.2, conv c.1 c.2), w)
    else
      (false, (c.1, c.2, 0), zeroWin)
  else
    (false, (c.1, c.2, 0), zeroWin)


/-- validate_patterns: filters detected patterns, dropping those whose
window hits the matrix border and those with too many missing pixels; the
rows that remain keep the input order and carry the correlation score at
the (unswapped) input coordinate, and the window stack is aligned with the
table row by row. -/
def validate_patterns (sm sn : Nat) (matrix conv : F) (detRows detCols : List Nat)
    (winH winW : Nat) (maxPct : ℚ) (coords : List (Nat × Nat)) :
    List (Nat × Nat × ℚ) × List (List (List ℚ)) :=
  let processed := coords.map (validateOne sm sn matrix conv detRows detCols winH winW maxPct)
  let kept := processed.filter (·.1)
  (kept.map (·.2.1), kept.map (·.2.2))


/-- np.allclose(kernel, np.tile(kernel[0, 0], kernel.shape), rtol=1e-08)
(with numpy default atol = 1e-08): every kernel entry is within
atol + rtol * |kernel[0, 0]| of kernel[0, 0]. When this holds,
constant_kernel = kernel[0, 0] is finite and the constant path is taken. -/
def isConstK (km kn : Nat) (k : F) : Bool :=
  decide (∀ r < km, ∀ c < kn,
    absQ (k r c - k 0 0) ≤ 1 / 100000000 + 1 / 100000000 * absQ (k 0 0))


/-- Entries of the general-path convolution accumulator: for each kernel
column kj, diags(kernel[:, kj], arange(km), shape=(sn-km+1, sm)) is applied
to the column slice signal[:, kj : sn-kn+1+kj] and the products are summed.
The accumulator out is created with shape (sm-km+1, sn-kn+1); the addends
have row count sn-km+1, so the sum only exists when sm = sn (the path
raises otherwise) and the row bound below uses the accumulator shape. -/
def genEntries (sm sn km kn : Nat) (s k : F) : F := fun i j =>
  if i < sm - km + 1 ∧ j < sn - kn + 1 then
    ∑ kj in Finset.range kn, ∑ r in Finset.range km,
      (if i + r < sm then k r kj * s (i + r) (j + kj) else 0)
  else 0


/-- Entries of the constant-path product
(l_subkernel_sp @ signal) @ r_subkernel_sp, scaled by the constant kernel
value; l_subkernel_sp = diags(ones(km), arange(km), (sn-km+1, sm)) and
r_subkernel_sp = diags(ones(kn), -arange(kn), (sn, sm-kn+1)) — note the
swapped roles of sm and sn in the shapes, exactly as in the source. -/
def constEntries (sm sn km kn : Nat) (s : F) (c : ℚ) : F := fun i j =>
  if i < sn - km + 1 ∧ j < sm - kn + 1 then
    c * ∑ kj in Finset.range kn,
      (if j + kj < sn then
        ∑ r in Finset.range km, (if i + r < sm then s (i + r) (j + kj) else 0)
      else 0)
  else 0


/-- out.data[out.data < threshold] = 0 followed by eliminate_zeros: stored
values below the threshold become (implicit) zeros; unstored positions are
zero either way, so the update is pointwise. -/
def threshF (thr : ℚ) (P : F) : F := fun i j => if P i j < thr then 0 else P i j


/-- The margin resize at the end of xcorr2: entries move from (i, j) to
(i + kh, j + kw) inside a matrix of the signal shape. -/
def resizeF (kh kw : Nat) (T : F) : F := fun a b =>
  if kh ≤ a ∧ kw ≤ b then T (a - kh) (b - kw) else 0


/-- Whether the shifted coordinates of every stored (nonzero) entry fit in
the target shape (sm, sn); when they do not, the coo_matrix constructor of
the resize step raises. -/
def resizeOkB (sm sn kh kw numRows numCols : Nat) (T : F) : Bool :=
  decide (∀ i < numRows, ∀ j < numCols, T i j ≠ 0 → i + kh < sm ∧ j + kw < sn)


/-- The resize step as a fallible operation. -/
def resizeStep (sm sn kh kw numRows numCols : Nat) (T : F) : Except String F :=
  if resizeOkB sm sn kh kw numRows numCols T then .ok (resizeF kh kw T)
  else .error "ValueError: coordinates out of bounds"


/-- The general (per-kernel-column) convolution path of xcorr2, including
thresholding and the margin resize. With a nonempty kernel and sm different
from sn the first accumulator addition has mismatched shapes and scipy
raises. -/
def xcorr2GenPath (sm sn km kn : Nat) (s k : F) (thr : ℚ) : Except String F :=
  if kn ≠ 0 ∧ sm ≠ sn then .error "ValueError: inconsistent shapes"
  else
    resizeStep sm sn ((km - 1) / 2) ((kn - 1) / 2) (sm - km + 1) (sn - kn + 1)
      (threshF thr (genEntries sm sn km kn s k))


/-- The specialised constant-kernel convolution path of xcorr2, including
thresholding and the margin resize. -/
def xcorr2ConstPath (sm sn km kn : Nat) (s : F) (c : ℚ) (thr : ℚ) : Except String F :=
  resizeStep sm sn ((km - 1) / 2) ((kn - 1) / 2) (sn - km + 1) (sm - kn + 1)
    (threshF thr (constEntries sm sn km kn s c))


/-- The sanity checks at the top of xcorr2, returning the error message of
the ValueError they raise, if any. The third check compares sn with
itself (the literal condition of the source, `(km > sm) or (sn > sn)`). -/
def xcorr2Checks (signalSparse kernelSparse : Bool) (sm sn km kn : Nat) : Option String :=
  if !signalSparse then some "cannot handle signal in dense format"
  else if kernelSparse then some "cannot handle kernel in sparse format"
  else if km > sm ∨ sn > sn then some "cannot have kernel bigger than signal"
  else none


/-- xcorr2 on a sparse signal and a dense kernel (the flag arguments of the
checks are fixed by the call sites): sanity checks, then the constant or
general convolution path. -/
def xcorr2 (sm sn km kn : Nat) (s k : F) (thr : ℚ) : Except String F :=
  match xcorr2Checks true false sm sn km kn with
  | some e => .error e
  | none =>
    if isConstK km kn k then xcorr2ConstPath sm sn km kn s (k 0 0) thr
    else xcorr2GenPath sm sn km kn s k thr


/-- The value xcorr2 computes when it does not raise (for square signals
both paths succeed and produce this function). -/
def xcorr2Fun (sm sn km kn : Nat) (s k : F) (thr : ℚ) : F :=
  if isConstK km kn k then
    resizeF ((km - 1) / 2) ((kn - 1) / 2) (threshF thr (constEntries sm sn km kn s (k 0 0)))
  else
    resizeF ((km - 1) / 2) ((kn - 1) / 2) (threshF thr (genEntries sm sn km kn s k))


/-- The sym_upper preprocessing of corrcoef2d: diagonals 1..km-1 of the
lower triangle are overwritten by their mirror in the upper triangle
(signal.setdiag(signal.diagonal(i), -i)). -/
def mirrorSym (km : Nat) (s : F) : F := fun i j =>
  if j < i ∧ i - j < km then s j i else s i j


/-- Modelled from the spec: preproc.diag_trim (chromosight.utils.
preprocessing is not part of src/) — "zero out all pixels whose
column−row distance exceeds it (bandwidth restriction)". -/
def diag_trim (d : Nat) (m : Nat → Nat → Option ℚ) : Nat → Nat → Option ℚ := fun i j =>
  if d < j - i then some 0 else m i j


/-- Σ kernel², the scalar kernel2 of corrcoef2d. -/
def corrKernel2 (km kn : Nat) (k : F) : ℚ :=
  ∑ r in Finset.range km, ∑ c in Finset.range kn, (k r c) ^ 2


/-- The quantity whose square root corrcoef2d divides by:
signal2 * kernel2, where signal2 is the convolution of the squared
(possibly mirrored) signal with a kernel of ones. -/
def corrDenomSq (sm sn km kn : Nat) (s k : F) (symUpper : Bool) : F := fun i j =>
  let s1 := if symUpper then mirrorSym km s else s
  xcorr2Fun sm sn km kn (fun a b => (s1 a b) ^ 2) (fun _ _ => 1) (1 / 10000) i j
    * corrKernel2 km kn k


/-- The correlation matrix corrcoef2d returns when no exception is raised.
Entries are Option ℚ: some v is an ordinary (finite) value and none stands
for the non-finite value numpy produces when a stored (positive) numerator
is divided by a zero denominator (x / 0 = inf in numpy; the model keeps ℚ
exact and marks the entry instead). A some 0 entry is an implicit sparse
zero. The division is only applied to stored numerator entries, negative
ratios are clipped to 0, diagonals beyond max_dist are trimmed, and only
the upper triangle is kept. -/
def corrcoef2dFun (sm sn km kn : Nat) (s k : F) (maxDist : Option Nat) (symUpper : Bool)
    (sqrtQ : ℚ → ℚ) : Nat → Nat → Option ℚ := fun i j =>
  let s1 := if symUpper then mirrorSym km s else s
  let conv := xcorr2Fun sm sn km kn s1 (fun r c => k r c / ((km * kn : Nat) : ℚ)) (1 / 10000)
  let denom := fun a b => sqrtQ (corrDenomSq sm sn km kn s k symUpper a b)
  let divided : Nat → Nat → Option ℚ := fun a b =>
    if conv a b = 0 then some 0
    else if denom a b = 0 then none
    else some (conv a b / denom a b)
  let clipped : Nat → Nat → Option ℚ := fun a b =>
    (divided a b).map fun v => if v < 0 then 0 else v
  let trimmed :=
    match maxDist with
    | none => clipped
    | some d => diag_trim d clipped
  if i ≤ j then trimmed i j else some 0


/-- corrcoef2d: Pearson-like correlation of the signal with the sliding
kernel. The first xcorr2 call of the source (whose result is discarded and
recomputed with kernel / kernel.size) is kept for its failure behaviour.
sqrtQ is the square-root map used by np.sqrt; theorems constrain it on the
values it is actually applied to. -/
def corrcoef2d (sm sn km kn : Nat) (s k : F) (maxDist : Option Nat) (symUpper : Bool)
    (sqrtQ : ℚ → ℚ) : Except String (Nat → Nat → Option ℚ) := do
  let s1 := if symUpper then mirrorSym km s else s
  let _conv0 ← xcorr2 sm sn km kn s1 k (1 / 10000)
  let signal2 ← xcorr2 sm sn km kn (fun a b => (s1 a b) ^ 2) (fun _ _ => 1) (1 / 10000)
  let k2 := corrKernel2 km kn k
  let conv ← xcorr2 sm sn km kn s1 (fun r c => k r c / ((km * kn : Nat) : ℚ)) (1 / 10000)
  let denom := fun a b => sqrtQ (signal2 a b * k2)
  let divided : Nat → Nat → Option ℚ := fun a b =>
    if conv a b = 0 then some 0
    else if denom a b = 0 then none
    else some (conv a b / denom a b)
  let clipped : Nat → Nat → Option ℚ := fun a b =>
    (divided a b).map fun v => if v < 0 then 0 else v
  let trimmed :=
    match maxDist with
    | none => clipped
    | some d => diag_trim d clipped
  return fun i j => if i ≤ j then trimmed i j else some 0


/-- The contact map object as consumed by the detection functions. -/
structure ContactMap where
  sm : Nat
  sn : Nat
  matrix : F
  max_dist : Nat
  detectable_rows : List Nat
  detectable_cols : List Nat


/-- A dense kernel matrix with its shape. -/
abbrev KMat := Nat × Nat × F


/-- A stack of pattern windows (the 3D array validate_patterns returns). -/
abbrev WindowStack := List (List (List ℚ))


/-- The kernel configuration dictionary fields the detection functions read. -/
structure KernelConfig where
  max_dist : Nat
  precision : ℚ
  max_perc_undetected : ℚ
  max_iterations : Nat
  kernels : List KMat


/-- Stored entries of an Option-valued sparse matrix of known shape, in
row-major order, skipping zeros (eliminate_zeros). When the matrix holds a
non-finite entry the model stops here: numpy would carry inf into the
median computation of the picker, which the exact ℚ model cannot express;
no claim depends on that path. -/
def entriesOfCorr (sm sn : Nat) (m : Nat → Nat → Option ℚ) : Except String (List (Pix × ℚ)) :=
  if decide (∀ i < sm, ∀ j < sn, m i j ≠ none) then
    .ok ((List.range sm).flatMap fun i =>
      (List.range sn).filterMap fun j =>
        match m i j with
        | some v => if v ≠ 0 then some ((i, j), v) else none
        | none => none)
  else .error "non-finite correlation values (model boundary)"


/-- pattern_detector: returns none (the (None, None) sentinel) when the
kernel is at least as tall as the matrix, otherwise correlates, cleans,
trims, picks and validates. The NaN cleanup of the source
(mat_conv.data[np.isnan(mat_conv.data)] = 0) removes nothing in the model:
0/0 never occurs because stored numerator entries are positive, so every
non-finite value is an inf, which the cleanup does not touch. -/
def pattern_detector (cm : ContactMap) (kc : KernelConfig) (km kn : Nat) (kernel : F)
    (sqrtQ : ℚ → ℚ) :
    Except String (Option (List (Nat × Nat × ℚ) × WindowStack)) :=
  if km ≥ cm.sm then .ok none
  else do
    let corr ← corrcoef2d cm.sm cm.sn km kn cm.matrix kernel (some kc.max_dist) false sqrtQ
    let trimmed := diag_trim cm.max_dist corr
    let entries ← entriesOfCorr cm.sm cm.sn trimmed
    match picker entries kc.precision with
    | none => .ok none
    | some coords =>
        .ok (some (validate_patterns cm.sm cm.sn cm.matrix
          (fun i j => lookupVal entries (i, j)) cm.detectable_rows cm.detectable_cols
          km kn kc.max_perc_undetected coords))


/-- An element of the kernels dictionary of explore_patterns: the original
iteration stores kernel matrices (Sum.inl); every later iteration appends
the raw window stacks returned by pattern_detector (Sum.inr), since the
source appends chrom_pattern_windows, not a pileup. -/
abbrev KernelEntry := KMat ⊕ WindowStack


/-- Dispatch of the pattern_detector call on a kernels-dictionary element.
A window stack used as a kernel is a 3D array: its shape[0] is the number
of windows; if it passes the size guard, the shape unpacking
`km, kn = kernel.shape` inside xcorr2 raises. (This branch is unreachable:
the pass guard of explore_patterns never runs a second iteration because
current_pattern_count is never updated.) -/
def pattern_detector_entry (cm : ContactMap) (kc : KernelConfig) (sqrtQ : ℚ → ℚ) :
    KernelEntry → Except String (Option (List (Nat × Nat × ℚ) × WindowStack))
  | Sum.inl kk => pattern_detector cm kc kk.1 kk.2.1 kk.2.2 sqrtQ
  | Sum.inr stack =>
      if stack.length ≥ cm.sm then .ok none
      else .error "ValueError: not enough values to unpack"


/-- The spatial hash of explore_patterns: coordinates divided by the
window size. -/
def neigh_hash (c : Nat × Nat × ℚ) (window : Nat) : Nat × Nat :=
  (c.1 / window, c.2.1 / window)


/-- The mutable state threaded through the explore_patterns loop. Python
sets are modelled as lists with membership-guarded insertion; the kernels
dictionary keys 1..max_iterations are the list positions 0..max-1;
last_detected models the Python loop variable detected_coords, which
persists across iterations and whose absence raises a NameError. -/
structure ExploreState where
  all_patterns : List (Nat × Nat × ℚ)
  hashed_neighborhoods : List (Nat × Nat)
  old_pattern_count : Int
  current_pattern_count : Int
  kernels : List (List KernelEntry)
  counts : List Nat
  last_detected : Option (List (Nat × Nat × ℚ))


/-- The per-coordinate body of `for new_coords in detected_coords`:
coordinates hashing to an already seen neighborhood are skipped, the rest
are added to the pattern set and their neighborhood is recorded. -/
def exploreFoldCoords (window : Nat) (st : ExploreState) (coords : List (Nat × Nat × ℚ)) :
    ExploreState :=
  coords.foldl
    (fun st c =>
      if neigh_hash c window ∈ st.hashed_neighborhoods then st
      else
        { st with
          all_patterns :=
            if c ∈ st.all_patterns then st.all_patterns else st.all_patterns ++ [c],
          hashed_neighborhoods := st.hashed_neighborhoods ++ [neigh_hash c window] })
    st


/-- Processing of a single kernel inside one pass of explore_patterns.
When pattern_detector returns the None sentinel, the source immediately
iterates over it (`for new_coords in detected_coords`), which raises a
TypeError; nothing guards against it. -/
def explorePassKernel (cm : ContactMap) (kc : KernelConfig) (sqrtQ : ℚ → ℚ) (window i : Nat)
    (st : ExploreState) (ke : KernelEntry) : Except String ExploreState := do
  let res ← pattern_detector_entry cm kc sqrtQ ke
  match res with
  | none => .error "TypeError: argument of type NoneType is not iterable"
  | some (coords, windows) =>
      let st := exploreFoldCoords window st coords
      .ok { st with
        kernels := st.kernels.set (i - 1) (st.kernels.getD (i - 1) [] ++ [Sum.inr windows]),
        last_detected := some coords }


/-- One iteration of the explore_patterns while-style loop: runs only while
the previous pattern count differs from the current one (the source never
updates current_pattern_count, so only the first pass ever runs the body);
afterwards the count of the last kernel of the pass is appended. -/
def explorePass (cm : ContactMap) (kc : KernelConfig) (sqrtQ : ℚ → ℚ) (window : Nat)
    (st : ExploreState) (i : Nat) : Except String ExploreState :=
  if st.old_pattern_count ≠ st.current_pattern_count then do
    let st1 := { st with old_pattern_count := st.current_pattern_count }
    let cur : List KernelEntry :=
      if i = 1 then kc.kernels.map Sum.inl else st1.kernels.getD (i - 2) []
    let st2 ← cur.foldlM (explorePassKernel cm kc sqrtQ window i) st1
    match st2.last_detected with
    | some coords => .ok { st2 with counts := st2.counts ++ [coords.length] }
    | none => .error "NameError: name detected_coords is not defined"
  else .ok st


/-- explore_patterns: the deprecated multi-pass detection loop, returning
the accumulated pattern set, the kernels dictionary (without the "ori"
entry) and the per-pass pattern counts. -/
def explore_patterns (cm : ContactMap) (kc : KernelConfig) (sqrtQ : ℚ → ℚ) (window : Nat) :
    Except String (List (Nat × Nat × ℚ) × List (List KernelEntry) × List Nat) := do
  let st0 : ExploreState :=
    ⟨[], [], -1, 0, List.replicate kc.max_iterations [], [], none⟩
  let st ← (List.range' 1 kc.max_iterations).foldlM (explorePass cm kc sqrtQ window) st0
  return (st.all_patterns, st.kernels, st.counts)


/-- From the claim wording: 8-way adjacency of candidate pixels — row and
column each differ by at most 1. -/
def adj8 (p q : Pix) : Bool :=
  decide ((max p.1 q.1 - min p.1 q.1 ≤ 1) ∧ (max p.2 q.2 - min p.2 q.2 ≤ 1))


/-- One expansion step of chain reachability inside the candidate set. -/
def reachStep (pts cur : List Pix) : List Pix :=
  pts.filter fun q => decide (q ∈ cur) || cur.any fun p => adj8 p q


/-- The candidate pixels reachable from p through chains of at most n
8-way adjacency steps. -/
def reachSet (pts : List Pix) (p : Pix) : Nat → List Pix
  | 0 => pts.filter fun x => decide (x = p)
  | n + 1 => reachStep pts (reachSet pts p n)


/-- From the claim wording: two candidate pixels are connected through a
chain of 8-way-adjacent candidate pixels (pts.length steps suffice). -/
def reach8 (pts : List Pix) (p q : Pix) : Bool :=
  decide (q ∈ reachSet pts p pts.length)


/-- From the claim wording of C7: the pattern window (rows
p1-half_h+1 .. p1+half_h-1, cols p2-half_w+1 .. p2+half_w-1) lies fully
inside the matrix bounds. -/
def specWindowInBounds (sm sn halfH halfW p1 p2 : Nat) : Prop :=
  halfH - 1 ≤ p1 ∧ p1 + halfH - 1 < sm ∧ halfW - 1 ≤ p2 ∧ p2 + halfW - 1 < sn


-- ## Theorems

-- ## Lemmas about validate_patterns

theorem ifSwapLo (a b : Nat) : (if a > b then b else a) = min a b := by
  split_ifs <;> omega


theorem ifSwapHi (a b : Nat) : (if a > b then a else b) = max a b := by
  split_ifs <;> omega


theorem validate_patterns_eq_filter (sm sn : Nat) (mat conv : F) (dr dc : List Nat)
    (wh ww : Nat) (pct : ℚ) (coords : List (Nat × Nat)) :
    validate_patterns sm sn mat conv dr dc wh ww pct coords =
      ((coords.filter fun c => (validateOne sm sn mat conv dr dc wh ww pct c).1).map
          fun c => (validateOne sm sn mat conv dr dc wh ww pct c).2.1,
        (coords.filter fun c => (validateOne sm sn mat conv dr dc wh ww pct c).1).map
          fun c => (validateOne sm sn mat conv dr dc wh ww pct c).2.2) := by
  unfold validate_patterns
  dsimp only
  rw [List.filter_map (validateOne sm sn mat conv dr dc wh ww pct) coords]
  simp only [List.map_map]
  rfl


theorem validateOne_row_coords (sm sn : Nat) (mat conv : F) (dr dc : List Nat)
    (wh ww : Nat) (pct : ℚ) (c : Nat × Nat) :
    (validateOne sm sn mat conv dr dc wh ww pct c).2.1.1 = c.1 ∧
      (validateOne sm sn mat conv dr dc wh ww pct c).2.1.2.1 = c.2 := by
  unfold validateOne
  dsimp only
  split_ifs <;> exact ⟨rfl, rfl⟩


theorem validateOne_fst_iff (sm sn : Nat) (mat conv : F) (dr dc : List Nat)
    (wh ww : Nat) (pct : ℚ) (c : Nat × Nat) :
    (validateOne sm sn mat conv dr dc wh ww pct c).1 = true ↔
      (wh / 2 + 1 ≤ min c.1 c.2 ∧ min c.1 c.2 + (wh / 2 + 1) + 1 < sm ∧
        ww / 2 + 1 ≤ max c.1 c.2 ∧ max c.1 c.2 + (ww / 2 + 1) + 1 < sn ∧
        ((max
            (nBadBins (winRange (min c.1 c.2) (wh / 2 + 1)) dr *
                (winRange (max c.1 c.2) (ww / 2 + 1)).length +
              nBadBins (winRange (max c.1 c.2) (ww / 2 + 1)) dc *
                (winRange (min c.1 c.2) (wh / 2 + 1)).length -
              nBadBins (winRange (min c.1 c.2) (wh / 2 + 1)) dr *
                nBadBins (winRange (max c.1 c.2) (ww / 2 + 1)) dc)
            ((windowOf mat (winRange (min c.1 c.2) (wh / 2 + 1))
                (winRange (max c.1 c.2) (ww / 2 + 1))).flatten.count 0) : Nat) : ℚ) /
          (((winRange (min c.1 c.2) (wh / 2 + 1)).length *
              (winRange (max c.1 c.2) (ww / 2 + 1)).length : Nat) : ℚ) < pct / 100) := by
  unfold validateOne
  dsimp only
  rw [ifSwapLo c.1 c.2, ifSwapHi c.1 c.2]
  split_ifs with hA hB
  · simp only [true_iff]
    exact ⟨hA.1, hA.2.1, hA.2.2.1, hA.2.2.2, hB⟩
  · simp only [Bool.false_eq_true, false_iff]
    tauto
  · simp only [Bool.false_eq_true, false_iff]
    tauto


theorem validateOne_accepted (sm sn : Nat) (mat conv : F) (dr dc : List Nat)
    (wh ww : Nat) (pct : ℚ) (c : Nat × Nat)
    (h : (validateOne sm sn mat conv dr dc wh ww pct c).1 = true) :
    (validateOne sm sn mat conv dr dc wh ww pct c).2 =
      ((c.1, c.2, conv c.1 c.2),
        windowOf mat (winRange (min c.1 c.2) (wh / 2 + 1))
          (winRange (max c.1 c.2) (ww / 2 + 1))) := by
  unfold validateOne at h ⊢
  dsimp only at h ⊢
  rw [ifSwapLo c.1 c.2, ifSwapHi c.1 c.2] at h ⊢
  split_ifs at h ⊢
  rfl


/-- C7 (amended): validate_patterns accepts a candidate (row, col) iff,
with p1 = min(row, col) and p2 = max(row, col) and half-sizes
half_h = win_h/2 + 1 and half_w = win_w/2 + 1, the margin conditions
half_h ≤ p1, p1 + half_h + 1 < n_rows, half_w ≤ p2, p2 + half_w + 1 < n_cols
hold (one pixel stricter at the start and two at the end than mere window
containment) and the missing fraction max(undetected-estimate, zero-count) /
total is strictly below max_undetected_pct / 100; accepted entries appear in
input order, scores are read at the unswapped coordinate, and the window
stack is aligned index-for-index. -/
theorem validate_patterns_characterization (sm sn : Nat) (mat conv : F) (dr dc : List Nat)
    (wh ww : Nat) (pct : ℚ) (coords : List (Nat × Nat)) :
    validate_patterns sm sn mat conv dr dc wh ww pct coords =
      ((coords.filter fun c =>
          decide (wh / 2 + 1 ≤ min c.1 c.2 ∧ min c.1 c.2 + (wh / 2 + 1) + 1 < sm ∧
            ww / 2 + 1 ≤ max c.1 c.2 ∧ max c.1 c.2 + (ww / 2 + 1) + 1 < sn ∧
            ((max
                (nBadBins (winRange (min c.1 c.2) (wh / 2 + 1)) dr *
                    (winRange (max c.1 c.2) (ww / 2 + 1)).length +
                  nBadBins (winRange (max c.1 c.2) (ww / 2 + 1)) dc *
                    (winRange (min c.1 c.2) (wh / 2 + 1)).length -
                  nBadBins (winRange (min c.1 c.2) (wh / 2 + 1)) dr *
                    nBadBins (winRange (max c.1 c.2) (ww / 2 + 1)) dc)
                ((windowOf mat (winRange (min c.1 c.2) (wh / 2 + 1))
                    (winRange (max c.1 c.2) (ww / 2 + 1))).flatten.count 0) : Nat) : ℚ) /
              (((winRange (min c.1 c.2) (wh / 2 + 1)).length *
                  (winRange (max c.1 c.2) (ww / 2 + 1)).length : Nat) : ℚ) < pct / 100)).map
          fun c => (c.1, c.2, conv c.1 c.2),
        (coords.filter fun c =>
          decide (wh / 2 + 1 ≤ min c.1 c.2 ∧ min c.1 c.2 + (wh / 2 + 1) + 1 < sm ∧
            ww / 2 + 1 ≤ max c.1 c.2 ∧ max c.1 c.2 + (ww / 2 + 1) + 1 < sn ∧
            ((max
                (nBadBins (winRange (min c.1 c.2) (wh / 2 + 1)) dr *
                    (winRange (max c.1 c.2) (ww / 2 + 1)).length +
                  nBadBins (winRange (max c.1 c.2) (ww / 2 + 1)) dc *
                    (winRange (min c.1 c.2) (wh / 2 + 1)).length -
                  nBadBins (winRange (min c.1 c.2) (wh / 2 + 1)) dr *
                    nBadBins (winRange (max c.1 c.2) (ww / 2 + 1)) dc)
                ((windowOf mat (winRange (min c.1 c.2) (wh / 2 + 1))
                    (winRange (max c.1 c.2) (ww / 2 + 1))).flatten.count 0) : Nat) : ℚ) /
              (((winRange (min c.1 c.2) (wh / 2 + 1)).length *
                  (winRange (max c.1 c.2) (ww / 2 + 1)).length : Nat) : ℚ) < pct / 100)).map
          fun c =>
            windowOf mat (winRange (min c.1 c.2) (wh / 2 + 1))
              (winRange (max c.1 c.2) (ww / 2 + 1))) := by
  have hfilter :
      (coords.filter fun c => (validateOne sm sn mat conv dr dc wh ww pct c).1) =
        coords.filter fun c =>
          decide (wh / 2 + 1 ≤ min c.1 c.2 ∧ min c.1 c.2 + (wh / 2 + 1) + 1 < sm ∧
            ww / 2 + 1 ≤ max c.1 c.2 ∧ max c.1 c.2 + (ww / 2 + 1) + 1 < sn ∧
            ((max
                (nBadBins (winRange (min c.1 c.2) (wh / 2 + 1)) dr *
                    (winRange (max c.1 c.2) (ww / 2 + 1)).length +
                  nBadBins (winRange (max c.1 c.2) (ww / 2 + 1)) dc *
                    (winRange (min c.1 c.2) (wh / 2 + 1)).length -
                  nBadBins (winRange (min c.1 c.2) (wh / 2 + 1)) dr *
                    nBadBins (winRange (max c.1 c.2) (ww / 2 + 1)) dc)
                ((windowOf mat (winRange (min c.1 c.2) (wh / 2 + 1))
                    (winRange (max c.1 c.2) (ww / 2 + 1))).flatten.count 0) : Nat) : ℚ) /
              (((winRange (min c.1 c.2) (wh / 2 + 1)).length *
                  (winRange (max c.1 c.2) (ww / 2 + 1)).length : Nat) : ℚ) < pct / 100) := by
    apply List.filter_congr
    intro c _
    have h := validateOne_fst_iff sm sn mat conv dr dc wh ww pct c
    cases hb : (validateOne sm sn mat conv dr dc wh ww pct c).1 <;> rw [hb] at h <;> simp_all
  rw [validate_patterns_eq_filter, hfilter]
  simp only [Prod.mk.injEq]
  constructor
  · apply List.map_congr_left
    intro c hc
    have hd := List.of_mem_filter hc
    rw [decide_eq_true_eq] at hd
    have hacc := (validateOne_fst_iff sm sn mat conv dr dc wh ww pct c).mpr hd
    exact congrArg Prod.fst (validateOne_accepted sm sn mat conv dr dc wh ww pct c hacc)
  · apply List.map_congr_left
    intro c hc
    have hd := List.of_mem_filter hc
    rw [decide_eq_true_eq] at hd
    have hacc := (validateOne_fst_iff sm sn mat conv dr dc wh ww pct c).mpr hd
    exact congrArg Prod.snd (validateOne_accepted sm sn mat conv dr dc wh ww pct c hacc)


-- ## Lemmas about firstOccs, sortLe and the picker

theorem mem_insertLe {α : Type} (le : α → α → Bool) (a x : α) (l : List α) :
    x ∈ insertLe le a l ↔ x ∈ a :: l := by
  induction l with
  | nil => simp [insertLe]
  | cons b t ih =>
    simp only [insertLe]
    split_ifs
    · simp
    · simp only [List.mem_cons, ih]
      tauto


theorem mem_sortLe {α : Type} (le : α → α → Bool) (x : α) (l : List α) :
    x ∈ sortLe le l ↔ x ∈ l := by
  induction l with
  | nil => simp [sortLe]
  | cons a t ih => simp only [sortLe, mem_insertLe, List.mem_cons, ih]


theorem firstOccs_loop_mem (l acc : List Nat) (a : Nat) :
    a ∈ l.foldl (fun acc v => if v ∈ acc then acc else acc ++ [v]) acc ↔ a ∈ acc ∨ a ∈ l := by
  induction l generalizing acc with
  | nil => simp
  | cons b t ih =>
    simp only [List.foldl_cons, ih]
    split_ifs with hb
    · constructor
      · tauto
      · rintro (h | h)
        · exact Or.inl h
        · rcases List.mem_cons.mp h with h1 | h2
          · exact Or.inl (h1 ▸ hb)
          · exact Or.inr h2
    · simp only [List.mem_append, List.mem_singleton, List.mem_cons]
      tauto


theorem mem_firstOccs (l : List Nat) (a : Nat) : a ∈ firstOccs l ↔ a ∈ l := by
  unfold firstOccs
  rw [firstOccs_loop_mem]
  simp


theorem firstOccs_loop_nodup (l acc : List Nat) (h : acc.Nodup) :
    (l.foldl (fun acc v => if v ∈ acc then acc else acc ++ [v]) acc).Nodup := by
  induction l generalizing acc with
  | nil => simpa
  | cons b t ih =>
    simp only [List.foldl_cons]
    split_ifs with hb
    · exact ih acc h
    · exact ih (acc ++ [b]) (by simp [List.nodup_append, h, hb])


theorem nodup_firstOccs (l : List Nat) : (firstOccs l).Nodup :=
  firstOccs_loop_nodup l [] List.nodup_nil


theorem toFinset_firstOccs (l : List Nat) : (firstOccs l).toFinset = l.toFinset := by
  ext a
  simp [mem_firstOccs]


theorem length_firstOccs (l : List Nat) : (firstOccs l).length = l.toFinset.card := by
  rw [← toFinset_firstOccs, List.toFinset_card_of_nodup (nodup_firstOccs l)]


theorem length_uniqueSorted (l : List Nat) : (uniqueSorted l).length = l.toFinset.card := by
  unfold uniqueSorted
  rw [length_firstOccs]
  congr 1
  ext a
  simp [mem_sortLe]


theorem mem_uniqueSorted (l : List Nat) (a : Nat) : a ∈ uniqueSorted l ↔ a ∈ l := by
  unfold uniqueSorted
  rw [mem_firstOccs, mem_sortLe]


theorem numFociOf_eq_card (pts : List Pix) :
    numFociOf pts = (rawReps pts).toFinset.card :=
  length_firstOccs (rawReps pts)


/-- Every label of the filtered labelled matrix is one of the pre-filter
labels. -/
theorem label_snd_mem_rawLabels (pts : List Pix) (minF : Nat) (v : Nat)
    (hv : v ∈ (label_connected_pixels_sparse pts minF).2.map (fun pr => pr.2)) :
    v ∈ rawLabels pts := by
  unfold label_connected_pixels_sparse at hv
  simp only [List.mem_map] at hv
  obtain ⟨pr, hpr, hv⟩ := hv
  have hmem := List.mem_of_mem_filter hpr
  have hne : pr.2 ≠ 0 := by
    have := List.of_mem_filter hpr
    simpa using this
  have hzip := List.of_mem_zip hmem
  obtain ⟨-, h2⟩ := hzip
  simp only [List.mem_map] at h2
  obtain ⟨w, hw, hws⟩ := h2
  by_cases hc : (rawLabels pts).count w < minF
  · rw [← hws] at hne
    simp [hc] at hne
  · rw [← hv, ← hws]
    simpa [hc] using hw


/-- The number of distinct labels surviving the size filter is at most the
focus count connected_components reports. -/
theorem uniques_length_le (pts : List Pix) (minF : Nat) :
    (uniqueSorted ((label_connected_pixels_sparse pts minF).2.map (fun pr => pr.2))).length ≤
      numFociOf pts := by
  rw [length_uniqueSorted, numFociOf_eq_card]
  have hsub : ((label_connected_pixels_sparse pts minF).2.map (fun pr => pr.2)).toFinset ⊆
      (rawLabels pts).toFinset := by
    intro a ha
    rw [List.mem_toFinset] at ha ⊢
    exact label_snd_mem_rawLabels pts minF a ha
  calc ((label_connected_pixels_sparse pts minF).2.map (fun pr => pr.2)).toFinset.card
      ≤ (rawLabels pts).toFinset.card := Finset.card_le_card hsub
    _ ≤ (rawReps pts).toFinset.card := by
        unfold rawLabels
        have : (List.map (fun v => rankOf (rawReps pts) v + 1) (rawReps pts)).toFinset =
            (rawReps pts).toFinset.image (fun v => rankOf (rawReps pts) v + 1) := by
          ext a
          simp
        rw [this]
        exact Finset.card_image_le


/-- Writing the representatives at ranks 0..len-1 into a zero-initialised
array of n rows leaves the trailing rows at (0, 0). -/
theorem foldl_set_enumFrom (cr : Nat → Pix) (u : List Nat) :
    ∀ (pre : List Pix) (m : Nat), u.length ≤ m →
      (List.enumFrom pre.length u).foldl (fun acc rl => acc.set rl.1 (cr rl.2))
          (pre ++ List.replicate m ((0, 0) : Pix)) =
        pre ++ u.map cr ++ List.replicate (m - u.length) ((0, 0) : Pix) := by
  induction u with
  | nil => simp
  | cons a t ih =>
    intro pre m hm
    have hm1 : 1 ≤ m := le_trans (by simp) hm
    simp only [List.enumFrom, List.foldl_cons]
    have hset : (pre ++ List.replicate m ((0, 0) : Pix)).set pre.length (cr a) =
        (pre ++ [cr a]) ++ List.replicate (m - 1) ((0, 0) : Pix) := by
      rw [List.set_append]
      simp only [lt_irrefl, if_neg (lt_irrefl pre.length), Nat.sub_self]
      have : List.replicate m ((0, 0) : Pix) = (0, 0) :: List.replicate (m - 1) ((0, 0) : Pix) := by
        rw [← List.replicate_succ]
        congr 1
        omega
      rw [this]
      simp
    rw [hset]
    have hpre : (pre ++ [cr a]).length = pre.length + 1 := by simp
    have := ih (pre ++ [cr a]) (m - 1) (by simp at hm ⊢; omega)
    rw [hpre] at this
    rw [this]
    have hlen : m - (a :: t).length = m - 1 - t.length := by
      simp only [List.length_cons]
      omega
    rw [hlen]
    simp


/-- The argmax scan: either no element beats the running best (and the
result is the starting index), or the result points at the first strict
improvement that attains the maximum of the scanned tail. -/
theorem argmaxFrom_spec (xs : List ℚ) : ∀ (bi i : Nat) (bv : ℚ),
    (argmaxFrom bi bv i xs = bi ∧ ∀ m, m < xs.length → xs.getD m 0 ≤ bv) ∨
    (∃ k, k < xs.length ∧ argmaxFrom bi bv i xs = i + k ∧ bv < xs.getD k 0 ∧
      (∀ m, m < xs.length → xs.getD m 0 ≤ xs.getD k 0) ∧
      ∀ m, m < k → xs.getD m 0 < xs.getD k 0) := by
  induction xs with
  | nil =>
    intro bi i bv
    left
    refine ⟨rfl, fun m hm => ?_⟩
    simp at hm
  | cons x t ih =>
    intro bi i bv
    simp only [argmaxFrom]
    by_cases hx : bv < x
    · rw [if_pos hx]
      rcases ih i (i + 1) x with ⟨h1, h2⟩ | ⟨k, hk, hr, hbx, hmax, hfirst⟩
      · right
        refine ⟨0, by simp, by rw [h1, Nat.add_zero], by simpa using hx, ?_, ?_⟩
        · intro m hm
          cases m with
          | zero => simp
          | succ m =>
            simp only [List.getD_cons_succ, List.getD_cons_zero]
            exact h2 m (by simpa using hm)
        · intro m hm
          omega
      · right
        refine ⟨k + 1, by simpa using hk, by rw [hr]; omega, ?_, ?_, ?_⟩
        · simp only [List.getD_cons_succ]
          exact lt_trans hx hbx
        · intro m hm
          cases m with
          | zero => simpa using le_of_lt hbx
          | succ m =>
            simp only [List.getD_cons_succ]
            exact hmax m (by simpa using hm)
        · intro m hm
          cases m with
          | zero => simpa using hbx
          | succ m =>
            simp only [List.getD_cons_succ]
            exact hfirst m (by omega)
    · rw [if_neg hx]
      rcases ih bi (i + 1) bv with ⟨h1, h2⟩ | ⟨k, hk, hr, hbx, hmax, hfirst⟩
      · left
        refine ⟨h1, fun m hm => ?_⟩
        cases m with
        | zero => simpa using le_of_not_lt hx
        | succ m =>
          simp only [List.getD_cons_succ]
          exact h2 m (by simpa using hm)
      · right
        refine ⟨k + 1, by simpa using hk, by rw [hr]; omega, ?_, ?_, ?_⟩
        · simp only [List.getD_cons_succ]
          exact hbx
        · intro m hm
          cases m with
          | zero =>
            simp only [List.getD_cons_succ, List.getD_cons_zero]
            exact le_trans (le_of_not_lt hx) (le_of_lt hbx)
          | succ m =>
            simp only [List.getD_cons_succ]
            exact hmax m (by simpa using hm)
        · intro m hm
          cases m with
          | zero =>
            simp only [List.getD_cons_succ, List.getD_cons_zero]
            exact lt_of_le_of_lt (le_of_not_lt hx) hbx
          | succ m =>
            simp only [List.getD_cons_succ]
            exact hfirst m (by omega)


/-- np.argmax on a nonempty list points at the first occurrence of the
maximum. -/
theorem argmaxIdx_spec (l : List ℚ) (hl : l ≠ []) :
    argmaxIdx l < l.length ∧
      (∀ m, m < l.length → l.getD m 0 ≤ l.getD (argmaxIdx l) 0) ∧
      ∀ m, m < argmaxIdx l → l.getD m 0 < l.getD (argmaxIdx l) 0 := by
  cases l with
  | nil => exact absurd rfl hl
  | cons x t =>
    simp only [argmaxIdx]
    rcases argmaxFrom_spec t 0 1 x with ⟨h1, h2⟩ | ⟨k, hk, hr, hbx, hmax, hfirst⟩
    · rw [h1]
      refine ⟨by simp, ?_, ?_⟩
      · intro m hm
        cases m with
        | zero => simp
        | succ m =>
          simp only [List.getD_cons_succ, List.getD_cons_zero]
          exact h2 m (by simpa using hm)
      · intro m hm
        omega
    · rw [hr]
      have hidx : (x :: t).getD (1 + k) 0 = t.getD k 0 := by
        rw [Nat.add_comm]
        simp
      refine ⟨by simp only [List.length_cons]; omega, ?_, ?_⟩
      · intro m hm
        rw [hidx]
        cases m with
        | zero => simpa using le_of_lt hbx
        | succ m =>
          simp only [List.getD_cons_succ]
          exact hmax m (by simpa using hm)
      · intro m hm
        rw [hidx]
        cases m with
        | zero => simpa using hbx
        | succ m =>
          simp only [List.getD_cons_succ]
          exact hfirst m (by omega)


/-- The nonempty focus pixel list of a label present in the labelled
matrix. -/
theorem focusPixels_ne_nil (labelled : List (Pix × Nat)) (lab : Nat)
    (h : lab ∈ labelled.map (fun pr => pr.2)) : focusPixels labelled lab ≠ [] := by
  unfold focusPixels
  simp only [ne_eq, List.map_eq_nil_iff, List.filter_eq_nil_iff, not_forall]
  rcases List.mem_map.mp h with ⟨pr, hpr, hlab⟩
  exact ⟨pr, hpr, by simp [hlab]⟩


/-- chooseRep picks the first pixel of the focus attaining the maximal
correlation value. -/
theorem chooseRep_spec (entries : List (Pix × ℚ)) (labelled : List (Pix × Nat)) (lab : Nat)
    (h : lab ∈ labelled.map (fun pr => pr.2)) :
    ∃ k, k < (focusPixels labelled lab).length ∧
      chooseRep entries labelled lab = (focusPixels labelled lab).getD k (0, 0) ∧
      (∀ m, m < (focusPixels labelled lab).length →
        lookupVal entries ((focusPixels labelled lab).getD m (0, 0)) ≤
          lookupVal entries ((focusPixels labelled lab).getD k (0, 0))) ∧
      ∀ m, m < k →
        lookupVal entries ((focusPixels labelled lab).getD m (0, 0)) <
          lookupVal entries ((focusPixels labelled lab).getD k (0, 0)) := by
  have hne := focusPixels_ne_nil labelled lab h
  set ps := focusPixels labelled lab with hps
  have hmapne : ps.map (lookupVal entries) ≠ [] := by
    simpa using hne
  obtain ⟨hlt, hmax, hfirst⟩ := argmaxIdx_spec (ps.map (lookupVal entries)) hmapne
  rw [List.length_map] at hlt
  refine ⟨argmaxIdx (ps.map (lookupVal entries)), hlt, rfl, ?_, ?_⟩
  · intro m hm
    have h1 := hmax m (by simpa using hm)
    rw [List.getD_eq_getElem _ _ (by simpa using hm),
      List.getD_eq_getElem _ _ (by simpa using hlt)] at h1
    simp only [List.getElem_map] at h1
    rw [List.getD_eq_getElem _ _ hm, List.getD_eq_getElem _ _ hlt]
    exact h1
  · intro m hm
    have hmlen : m < ps.length := lt_trans hm hlt
    have h1 := hfirst m hm
    rw [List.getD_eq_getElem _ _ (by simpa using hmlen),
      List.getD_eq_getElem _ _ (by simpa using hlt)] at h1
    simp only [List.getElem_map] at h1
    rw [List.getD_eq_getElem _ _ hmlen, List.getD_eq_getElem _ _ hlt]
    exact h1


/-- C3 (amended): when at least one candidate survives the threshold, the
picker returns an array of num_foci rows (the pre-filter focus count): the
first rows hold, in increasing label order, the representative of every
surviving focus — the first pixel of the focus attaining the maximal
correlation value — and the remaining rows keep the zero initialisation
(0, 0). -/
theorem picker_structure (entries : List (Pix × ℚ)) (precision : ℚ)
    (cands : List Pix) (nf : Nat) (labelled : List (Pix × Nat)) (uniques : List Nat)
    (hc : cands = pickerCandidates entries precision)
    (hne : cands ≠ [])
    (hnf : nf = (label_connected_pixels_sparse cands 2).1)
    (hlb : labelled = (label_connected_pixels_sparse cands 2).2)
    (hu : uniques = uniqueSorted (labelled.map (fun pr => pr.2))) :
    picker entries precision =
        some (uniques.map (chooseRep entries labelled) ++
          List.replicate (nf - uniques.length) (0, 0)) ∧
      ∀ lab ∈ uniques,
        ∃ k, k < (focusPixels labelled lab).length ∧
          chooseRep entries labelled lab = (focusPixels labelled lab).getD k (0, 0) ∧
          (∀ m, m < (focusPixels labelled lab).length →
            lookupVal entries ((focusPixels labelled lab).getD m (0, 0)) ≤
              lookupVal entries ((focusPixels labelled lab).getD k (0, 0))) ∧
          ∀ m, m < k →
            lookupVal entries ((focusPixels labelled lab).getD m (0, 0)) <
              lookupVal entries ((focusPixels labelled lab).getD k (0, 0)) := by
  subst hc hnf hlb hu
  constructor
  · unfold picker
    rw [if_pos (by simpa using List.length_pos.mpr hne)]
    have hlen :
        (uniqueSorted ((label_connected_pixels_sparse (pickerCandidates entries precision) 2).2.map
          (fun pr => pr.2))).length ≤
          (label_connected_pixels_sparse (pickerCandidates entries precision) 2).1 :=
      uniques_length_le (pickerCandidates entries precision) 2
    have hfold := foldl_set_enumFrom
      (chooseRep entries (label_connected_pixels_sparse (pickerCandidates entries precision) 2).2)
      (uniqueSorted ((label_connected_pixels_sparse (pickerCandidates entries precision) 2).2.map
        (fun pr => pr.2)))
      [] ((label_connected_pixels_sparse (pickerCandidates entries precision) 2).1) hlen
    simp only [List.nil_append, List.length_nil] at hfold
    dsimp only
    exact congrArg some hfold
  · intro lab hlab
    apply chooseRep_spec
    exact (mem_uniqueSorted _ lab).mp hlab


theorem length_propagateEdges (edges : List (Nat × Nat)) (r : List Nat) :
    (propagateEdges edges r).length = r.length := by
  unfold propagateEdges
  induction edges generalizing r with
  | nil => rfl
  | cons e t ih =>
    simp only [List.foldl_cons]
    rw [ih]
    simp


theorem length_compReps (n : Nat) (edges : List (Nat × Nat)) :
    (compReps n edges).length = n := by
  unfold compReps
  have h : ∀ (l : List Nat) (r : List Nat),
      (l.foldl (fun r _ => propagateEdges edges r) r).length = r.length := by
    intro l
    induction l with
    | nil => intro r; rfl
    | cons a t ih =>
      intro r
      simp only [List.foldl_cons]
      rw [ih, length_propagateEdges]
  rw [h, List.length_range]


theorem length_rawLabels (pts : List Pix) : (rawLabels pts).length = pts.length := by
  unfold rawLabels rawReps
  rw [List.length_map, length_compReps]


theorem rawLabels_pos (pts : List Pix) (v : Nat) (hv : v ∈ rawLabels pts) : 0 < v := by
  unfold rawLabels at hv
  rcases List.mem_map.mp hv with ⟨w, -, hw⟩
  omega


/-- When no focus is below the size threshold, the labelled matrix keeps
every candidate pixel, in order. -/
theorem label_support_of_no_small (pts : List Pix) (minF : Nat)
    (h : ∀ v ∈ rawLabels pts, minF ≤ (rawLabels pts).count v) :
    (label_connected_pixels_sparse pts minF).2.map (fun pr => pr.1) = pts := by
  unfold label_connected_pixels_sparse
  dsimp only
  have hf : (rawLabels pts).map
      (fun v => if (rawLabels pts).count v < minF then 0 else v) = rawLabels pts := by
    rw [List.map_congr_left (g := id) ?_, List.map_id]
    intro v hv
    simp only [id]
    rw [if_neg (not_lt.mpr (h v hv))]
  rw [hf]
  have hall : (pts.zip (rawLabels pts)).filter (fun pr => pr.2 ≠ 0) = pts.zip (rawLabels pts) := by
    rw [List.filter_eq_self]
    intro pr hpr
    have := (List.of_mem_zip hpr).2
    have hpos := rawLabels_pos pts pr.2 this
    simpa using Nat.pos_iff_ne_zero.mp hpos
  rw [hall]
  exact List.map_fst_zip pts (rawLabels pts) (by rw [length_rawLabels])


theorem length_foldl_set (cr : Nat → Pix) (u : List (Nat × Nat)) :
    ∀ acc : List Pix,
      (u.foldl (fun acc rl => acc.set rl.1 (cr rl.2)) acc).length = acc.length := by
  induction u with
  | nil => intro acc; rfl
  | cons a t ih =>
    intro acc
    simp only [List.foldl_cons]
    rw [ih]
    simp


/-- C5 (amended): relabelling the labelled focus matrix yields the same
focus count, provided every focus of the first run reaches the minimum
size (no focus is removed). The counterexample with two isolated pixels
shows the unconditional claim fails, since the first count is taken before
small-focus removal. -/
theorem label_relabel_count_stable (pts : List Pix) (minF : Nat)
    (h : ∀ v ∈ rawLabels pts, minF ≤ (rawLabels pts).count v) :
    (label_connected_pixels_sparse
        ((label_connected_pixels_sparse pts minF).2.map (fun pr => pr.1)) minF).1 =
      (label_connected_pixels_sparse pts minF).1 := by
  rw [label_support_of_no_small pts minF h]


theorem label_relabel_count_stable_witness :
    (∀ v ∈ rawLabels [(5, 5), (5, 6)], 2 ≤ (rawLabels [(5, 5), (5, 6)]).count v) ∧
      (label_connected_pixels_sparse
          ((label_connected_pixels_sparse [(5, 5), (5, 6)] 2).2.map (fun pr => pr.1)) 2).1 =
        (label_connected_pixels_sparse [(5, 5), (5, 6)] 2).1 :=
  ⟨by decide, label_relabel_count_stable [(5, 5), (5, 6)] 2 (by decide)⟩


/-- C5 (counterexample): two isolated candidate pixels give focus count 2,
both foci are removed as too small, and relabelling the (now empty)
labelled matrix gives focus count 0. -/
theorem label_relabel_count_differs :
    (label_connected_pixels_sparse
        ((label_connected_pixels_sparse [(0, 0), (2, 2)] 2).2.map (fun pr => pr.1)) 2).1 ≠
      (label_connected_pixels_sparse [(0, 0), (2, 2)] 2).1 := by
  decide


/-- C6: the 4x4 scenario — focus count 2 with the expected labelled
matrix, and two candidate pixels carry the same label exactly when they
are connected through a chain of 8-way-adjacent candidate pixels. -/
theorem label_scenario_4x4 :
    label_connected_pixels_sparse [(0, 0), (1, 0), (1, 2), (2, 0), (2, 2), (2, 3)] 2 =
        (2, [((0, 0), 1), ((1, 0), 1), ((1, 2), 2), ((2, 0), 1), ((2, 2), 2), ((2, 3), 2)]) ∧
      (([(0, 0), (1, 0), (1, 2), (2, 0), (2, 2), (2, 3)] : List Pix).all fun p =>
        ([(0, 0), (1, 0), (1, 2), (2, 0), (2, 2), (2, 3)] : List Pix).all fun q =>
          ((((label_connected_pixels_sparse
                  [(0, 0), (1, 0), (1, 2), (2, 0), (2, 2), (2, 3)] 2).2.find?
                (fun pr => pr.1 = p)).map (fun pr => pr.2) ==
              ((label_connected_pixels_sparse
                  [(0, 0), (1, 0), (1, 2), (2, 0), (2, 2), (2, 3)] 2).2.find?
                (fun pr => pr.1 = q)).map (fun pr => pr.2)) ==
            reach8 [(0, 0), (1, 0), (1, 2), (2, 0), (2, 2), (2, 3)] p q)) = true := by
  constructor
  · decide
  · decide


/-- C10: the focus count label_connected_pixels_sparse returns is computed
before small-focus removal — it does not depend on min_focus_size at all —
it can strictly exceed the number of distinct labels left in the labelled
matrix, and the picker sizes its coordinate array by exactly this
pre-filter count. -/
theorem label_count_prefilter :
    (∀ (pts : List Pix) (minF : Nat),
        (label_connected_pixels_sparse pts minF).1 =
          (label_connected_pixels_sparse pts 1).1) ∧
      ((label_connected_pixels_sparse [(0, 0), (2, 2)] 2).1 = 2 ∧
        (uniqueSorted
            ((label_connected_pixels_sparse [(0, 0), (2, 2)] 2).2.map (fun pr => pr.2))).length =
          0) ∧
      ∀ (entries : List (Pix × ℚ)) (precision : ℚ) (l : List Pix),
        picker entries precision = some l →
        l.length = (label_connected_pixels_sparse (pickerCandidates entries precision) 2).1 := by
  refine ⟨fun pts minF => rfl, by decide, ?_⟩
  intro entries precision l hl
  unfold picker at hl
  by_cases hc : (pickerCandidates entries precision).length > 0
  · rw [if_pos hc] at hl
    dsimp only at hl
    rw [← Option.some.inj hl, length_foldl_set, List.length_replicate]
  · rw [if_neg hc] at hl
    exact absurd hl (by simp)


/-- C8 (amended): on a square sparse signal, the specialised
constant-kernel path of xcorr2 computes exactly what the general
per-kernel-column path computes, and an exactly constant kernel does take
the specialised path. On non-square signals the two paths differ (the
shapes of the band operators swap the roles of the two signal dimensions),
which the counterexample exhibits. -/
theorem xcorr2_const_eq_gen (n km kn : Nat) (s k : F) (c thr : ℚ)
    (hkm : 0 < km) (hkm2 : km ≤ n) (hkn : 0 < kn) (hkn2 : kn ≤ n)
    (hconst : ∀ r, r < km → ∀ cc, cc < kn → k r cc = c) :
    isConstK km kn k = true ∧
      xcorr2ConstPath n n km kn s (k 0 0) thr = xcorr2GenPath n n km kn s k thr := by
  have hk00 : k 0 0 = c := hconst 0 hkm 0 hkn
  constructor
  · simp only [isConstK, decide_eq_true_eq]
    intro r hr cc hcc
    rw [hconst r hr cc hcc, hk00]
    have habs : absQ (c - c) = 0 := by simp [absQ]
    rw [habs]
    have h0 : (0 : ℚ) ≤ absQ c := by
      unfold absQ
      split_ifs with hc0
      · linarith
      · linarith
    positivity
  · have hent : constEntries n n km kn s (k 0 0) = genEntries n n km kn s k := by
      funext i j
      unfold constEntries genEntries
      by_cases hd : i < n - km + 1 ∧ j < n - kn + 1
      · rw [if_pos hd, if_pos hd]
        have hin : ∀ kj ∈ Finset.range kn, j + kj < n := by
          intro kj hkj
          rw [Finset.mem_range] at hkj
          omega
        rw [Finset.sum_congr rfl fun kj hkj => if_pos (hin kj hkj)]
        rw [Finset.mul_sum]
        apply Finset.sum_congr rfl
        intro kj hkj
        rw [Finset.mul_sum]
        apply Finset.sum_congr rfl
        intro r hr
        rw [Finset.mem_range] at hkj hr
        rw [hconst r hr kj hkj, hk00]
        rw [mul_ite, mul_zero]
      · rw [if_neg hd, if_neg hd]
    unfold xcorr2ConstPath xcorr2GenPath
    rw [if_neg (by omega)]
    rw [hent]


theorem xcorr2_const_eq_gen_witness :
    isConstK 1 1 (fun _ _ : Nat => (5 : ℚ)) = true ∧
      xcorr2ConstPath 2 2 1 1 (fun i j => (i : ℚ) + j) ((fun _ _ : Nat => (5 : ℚ)) 0 0)
          (1 / 10000) =
        xcorr2GenPath 2 2 1 1 (fun i j => (i : ℚ) + j) (fun _ _ : Nat => (5 : ℚ)) (1 / 10000) :=
  xcorr2_const_eq_gen 2 1 1 (fun i j => (i : ℚ) + j) (fun _ _ : Nat => (5 : ℚ)) 5 (1 / 10000)
    (by norm_num) (by norm_num) (by norm_num) (by norm_num) (fun r hr cc hcc => rfl)


-- ## Lemmas for the correlation range invariant

theorem resizeOkB_square (n km kn : Nat) (hkm : 0 < km) (hkm2 : km ≤ n) (hkn : 0 < kn)
    (hkn2 : kn ≤ n) (T : F) :
    resizeOkB n n ((km - 1) / 2) ((kn - 1) / 2) (n - km + 1) (n - kn + 1) T = true := by
  simp only [resizeOkB, decide_eq_true_eq]
  intro i hi j hj _
  omega


theorem isConstK_ones (km kn : Nat) : isConstK km kn (fun _ _ => (1 : ℚ)) = true := by
  simp only [isConstK, decide_eq_true_eq]
  intro r _ c _
  simp only [sub_self]
  have h1 : absQ 0 = 0 := by simp [absQ]
  have h2 : absQ 1 = 1 := by norm_num [absQ]
  rw [h1, h2]
  norm_num


theorem xcorr2_sq_ok (n km kn : Nat) (s k : F) (thr : ℚ) (hkm : 0 < km) (hkm2 : km ≤ n)
    (hkn : 0 < kn) (hkn2 : kn ≤ n) :
    xcorr2 n n km kn s k thr = .ok (xcorr2Fun n n km kn s k thr) := by
  have hchecks : xcorr2Checks true false n n km kn = none := by
    simp only [xcorr2Checks, Bool.not_true, Bool.false_eq_true, if_false]
    rw [if_neg (by omega)]
  unfold xcorr2 xcorr2Fun
  rw [hchecks]
  by_cases hck : isConstK km kn k = true
  · rw [if_pos hck, if_pos hck]
    unfold xcorr2ConstPath resizeStep
    rw [if_pos (resizeOkB_square n km kn hkm hkm2 hkn hkn2 _)]
  · rw [if_neg hck, if_neg hck]
    unfold xcorr2GenPath resizeStep
    rw [if_neg (by omega)]
    rw [if_pos (resizeOkB_square n km kn hkm hkm2 hkn hkn2 _)]


theorem resizeF_apply (kh kw : Nat) (T : F) (a b : Nat) :
    resizeF kh kw T a b = if kh ≤ a ∧ kw ≤ b then T (a - kh) (b - kw) else 0 := rfl


theorem threshF_apply (thr : ℚ) (P : F) (i j : Nat) :
    threshF thr P i j = if P i j < thr then 0 else P i j := rfl


theorem resize_thresh_zero_or_ge (kh kw : Nat) (thr : ℚ) (P : F) (i j : Nat) :
    resizeF kh kw (threshF thr P) i j = 0 ∨ thr ≤ resizeF kh kw (threshF thr P) i j := by
  rw [resizeF_apply]
  split_ifs with h1
  · rw [threshF_apply]
    split_ifs with h2
    · exact Or.inl rfl
    · exact Or.inr (le_of_not_lt h2)
  · exact Or.inl rfl


theorem xcorr2Fun_zero_or_ge (sm sn km kn : Nat) (s k : F) (thr : ℚ) (i j : Nat) :
    xcorr2Fun sm sn km kn s k thr i j = 0 ∨ thr ≤ xcorr2Fun sm sn km kn s k thr i j := by
  simp only [xcorr2Fun]
  split_ifs <;> exact resize_thresh_zero_or_ge _ _ _ _ _ _


theorem constEntries_in_domain (n km kn : Nat) (s1 : F) (c : ℚ) (a b : Nat)
    (hkm2 : km ≤ n) (hkn2 : kn ≤ n) (hd : a < n - km + 1 ∧ b < n - kn + 1) :
    constEntries n n km kn s1 c a b =
      c * ∑ kj in Finset.range kn, ∑ r in Finset.range km, s1 (a + r) (b + kj) := by
  unfold constEntries
  rw [if_pos hd]
  congr 1
  apply Finset.sum_congr rfl
  intro kj hkj
  rw [Finset.mem_range] at hkj
  rw [if_pos (by omega)]
  apply Finset.sum_congr rfl
  intro r hr
  rw [Finset.mem_range] at hr
  rw [if_pos (by omega)]


theorem genEntries_in_domain (n km kn : Nat) (s1 k : F) (a b : Nat)
    (hkm2 : km ≤ n) (hkn2 : kn ≤ n) (hd : a < n - km + 1 ∧ b < n - kn + 1) :
    genEntries n n km kn s1 k a b =
      ∑ kj in Finset.range kn, ∑ r in Finset.range km, k r kj * s1 (a + r) (b + kj) := by
  unfold genEntries
  rw [if_pos hd]
  apply Finset.sum_congr rfl
  intro kj hkj
  apply Finset.sum_congr rfl
  intro r hr
  rw [Finset.mem_range] at hr
  rw [if_pos (by omega)]


theorem constEntries_out_domain (sm sn km kn : Nat) (s1 : F) (c : ℚ) (a b : Nat)
    (hd : ¬ (a < sn - km + 1 ∧ b < sm - kn + 1)) :
    constEntries sm sn km kn s1 c a b = 0 := by
  unfold constEntries
  rw [if_neg hd]


theorem genEntries_out_domain (sm sn km kn : Nat) (s1 k : F) (a b : Nat)
    (hd : ¬ (a < sm - km + 1 ∧ b < sn - kn + 1)) :
    genEntries sm sn km kn s1 k a b = 0 := by
  unfold genEntries
  rw [if_neg hd]


theorem resize_thresh_ne (kh kw : Nat) (thr : ℚ) (E : F) (i j : Nat)
    (h : resizeF kh kw (threshF thr E) i j ≠ 0) :
    kh ≤ i ∧ kw ≤ j ∧ resizeF kh kw (threshF thr E) i j = E (i - kh) (j - kw) := by
  rw [resizeF_apply] at h ⊢
  by_cases h1 : kh ≤ i ∧ kw ≤ j
  · rw [if_pos h1] at h ⊢
    rw [threshF_apply] at h ⊢
    split_ifs at h ⊢ with h2
    · exact absurd rfl h
    · exact ⟨h1.1, h1.2, rfl⟩
  · rw [if_neg h1] at h
    exact absurd rfl h


theorem double_sum_cs (km kn : Nat) (f g : Nat → Nat → ℚ) :
    (∑ kj in Finset.range kn, ∑ r in Finset.range km, f r kj * g r kj) ^ 2 ≤
      (∑ kj in Finset.range kn, ∑ r in Finset.range km, (f r kj) ^ 2) *
        ∑ kj in Finset.range kn, ∑ r in Finset.range km, (g r kj) ^ 2 := by
  have h1 : (∑ kj in Finset.range kn, ∑ r in Finset.range km, f r kj * g r kj) =
      ∑ p in Finset.range kn ×ˢ Finset.range km, f p.2 p.1 * g p.2 p.1 :=
    (Finset.sum_product' (Finset.range kn) (Finset.range km) (fun kj r => f r kj * g r kj)).symm
  have h2 : (∑ kj in Finset.range kn, ∑ r in Finset.range km, (f r kj) ^ 2) =
      ∑ p in Finset.range kn ×ˢ Finset.range km, (f p.2 p.1) ^ 2 :=
    (Finset.sum_product' (Finset.range kn) (Finset.range km) (fun kj r => (f r kj) ^ 2)).symm
  have h3 : (∑ kj in Finset.range kn, ∑ r in Finset.range km, (g r kj) ^ 2) =
      ∑ p in Finset.range kn ×ˢ Finset.range km, (g p.2 p.1) ^ 2 :=
    (Finset.sum_product' (Finset.range kn) (Finset.range km) (fun kj r => (g r kj) ^ 2)).symm
  have hcs := Finset.sum_mul_sq_le_sq_mul_sq (Finset.range kn ×ˢ Finset.range km)
    (fun p => f p.2 p.1) (fun p => g p.2 p.1)
  rw [← h1, ← h2, ← h3] at hcs
  exact hcs


theorem double_sum_sq_le (km kn : Nat) (g : Nat → Nat → ℚ) :
    (∑ kj in Finset.range kn, ∑ r in Finset.range km, g r kj) ^ 2 ≤
      ((km * kn : Nat) : ℚ) *
        ∑ kj in Finset.range kn, ∑ r in Finset.range km, (g r kj) ^ 2 := by
  have h := double_sum_cs km kn (fun _ _ => 1) g
  simp only [one_mul, one_pow] at h
  have hc : (∑ _kj in Finset.range kn, ∑ _r in Finset.range km, (1 : ℚ)) =
      ((km * kn : Nat) : ℚ) := by
    simp [Finset.sum_const, mul_comm]
  rw [hc] at h
  exact h


theorem double_sum_sq_nonneg (km kn : Nat) (g : Nat → Nat → ℚ) :
    0 ≤ ∑ kj in Finset.range kn, ∑ r in Finset.range km, (g r kj) ^ 2 := by
  apply Finset.sum_nonneg
  intro kj _
  apply Finset.sum_nonneg
  intro r _
  exact sq_nonneg _


theorem corrKernel2_nonneg (km kn : Nat) (k : F) : 0 ≤ corrKernel2 km kn k := by
  unfold corrKernel2
  apply Finset.sum_nonneg
  intro r _
  apply Finset.sum_nonneg
  intro c _
  exact sq_nonneg _


theorem sq_single_le_corrKernel2 (km kn : Nat) (k : F) (hkm : 0 < km) (hkn : 0 < kn) :
    (k 0 0) ^ 2 ≤ corrKernel2 km kn k := by
  unfold corrKernel2
  have h1 : (k 0 0) ^ 2 ≤ ∑ c in Finset.range kn, (k 0 c) ^ 2 := by
    apply Finset.single_le_sum (f := fun c => (k 0 c) ^ 2)
    · intro c _
      exact sq_nonneg _
    · simpa using hkn
  apply le_trans h1
  apply Finset.single_le_sum (f := fun r => ∑ c in Finset.range kn, (k r c) ^ 2)
  · intro r _
    apply Finset.sum_nonneg
    intro c _
    exact sq_nonneg _
  · simpa using hkm


/-- Core bound for the correlation range invariant: at a pixel where both
the thresholded numerator convolution and the thresholded squared-signal
convolution are stored (nonzero), the numerator squared is at most
signal2 * kernel2, by the Cauchy-Schwarz inequality over the kernel
window. -/
theorem numer_sq_le_denom (n km kn : Nat) (s1 k : F) (i j : Nat)
    (hkm : 0 < km) (hkm2 : km ≤ n) (hkn : 0 < kn) (hkn2 : kn ≤ n)
    (hnum : xcorr2Fun n n km kn s1
      (fun r c => k r c / ((km * kn : Nat) : ℚ)) (1 / 10000) i j ≠ 0)
    (hden : xcorr2Fun n n km kn (fun a b => (s1 a b) ^ 2)
      (fun _ _ => 1) (1 / 10000) i j ≠ 0) :
    (xcorr2Fun n n km kn s1 (fun r c => k r c / ((km * kn : Nat) : ℚ)) (1 / 10000) i j) ^ 2 ≤
      (xcorr2Fun n n km kn (fun a b => (s1 a b) ^ 2) (fun _ _ => 1) (1 / 10000) i j) *
        corrKernel2 km kn k := by
  have hK1 : (1 : ℚ) ≤ ((km * kn : Nat) : ℚ) := by
    have h : 1 ≤ km * kn := Nat.one_le_iff_ne_zero.mpr (by positivity)
    exact_mod_cast h
  have hK0 : ((km * kn : Nat) : ℚ) ≠ 0 := by linarith
  have hconstpath : xcorr2Fun n n km kn (fun a b => (s1 a b) ^ 2) (fun _ _ => 1) (1 / 10000) =
      resizeF ((km - 1) / 2) ((kn - 1) / 2) (threshF (1 / 10000)
        (constEntries n n km kn (fun a b => (s1 a b) ^ 2) 1)) := by
    unfold xcorr2Fun
    rw [if_pos (isConstK_ones km kn)]
  rw [hconstpath] at hden ⊢
  obtain ⟨hi, hj, hdeq⟩ := resize_thresh_ne _ _ _ _ i j hden
  rw [hdeq] at hden ⊢
  set a := i - (km - 1) / 2 with hadef
  set b := j - (kn - 1) / 2 with hbdef
  have hdom : a < n - km + 1 ∧ b < n - kn + 1 := by
    by_contra hc
    exact hden (constEntries_out_domain n n km kn _ 1 a b hc)
  rw [constEntries_in_domain n km kn _ 1 a b hkm2 hkn2 hdom, one_mul]
  set S2 := ∑ kj in Finset.range kn, ∑ r in Finset.range km, (s1 (a + r) (b + kj)) ^ 2
    with hS2def
  have hS2 : 0 ≤ S2 := double_sum_sq_nonneg km kn _
  have hK2 : 0 ≤ corrKernel2 km kn k := corrKernel2_nonneg km kn k
  unfold xcorr2Fun at hnum ⊢
  split_ifs at hnum ⊢ with hck
  · -- constant path taken for kernel / K
    obtain ⟨-, -, hneq⟩ := resize_thresh_ne _ _ _ _ i j hnum
    rw [hneq]
    rw [constEntries_in_domain n km kn s1 _ a b hkm2 hkn2 hdom]
    rw [show ((fun r c => k r c / ((km * kn : Nat) : ℚ)) 0 0) =
      k 0 0 / ((km * kn : Nat) : ℚ) from rfl]
    set K : ℚ := ((km * kn : Nat) : ℚ) with hKdef
    set t : ℚ := k 0 0 / K with htdef
    set W := ∑ kj in Finset.range kn, ∑ r in Finset.range km, s1 (a + r) (b + kj) with hWdef
    have hW : W ^ 2 ≤ K * S2 := double_sum_sq_le km kn _
    have hk00 : (t * K) ^ 2 ≤ corrKernel2 km kn k := by
      rw [htdef, div_mul_cancel₀ _ hK0]
      exact sq_single_le_corrKernel2 km kn k hkm hkn
    have ht2 : (0 : ℚ) ≤ t ^ 2 := sq_nonneg t
    have hKK : K ≤ K ^ 2 := by nlinarith
    calc (t * W) ^ 2 = t ^ 2 * W ^ 2 := by ring
      _ ≤ t ^ 2 * (K * S2) := mul_le_mul_of_nonneg_left hW ht2
      _ = (t ^ 2 * S2) * K := by ring
      _ ≤ (t ^ 2 * S2) * K ^ 2 := mul_le_mul_of_nonneg_left hKK (by positivity)
      _ = (t * K) ^ 2 * S2 := by ring
      _ ≤ corrKernel2 km kn k * S2 := mul_le_mul_of_nonneg_right hk00 hS2
      _ = S2 * corrKernel2 km kn k := by ring
  · -- general path taken for kernel / K
    obtain ⟨-, -, hneq⟩ := resize_thresh_ne _ _ _ _ i j hnum
    rw [hneq]
    rw [genEntries_in_domain n km kn s1 _ a b hkm2 hkn2 hdom]
    set K : ℚ := ((km * kn : Nat) : ℚ) with hKdef
    have hcs := double_sum_cs km kn (fun r kj => k r kj / K)
      (fun r kj => s1 (a + r) (b + kj))
    have hsum : (∑ kj in Finset.range kn, ∑ r in Finset.range km, (k r kj / K) ^ 2) =
        corrKernel2 km kn k / K ^ 2 := by
      unfold corrKernel2
      rw [Finset.sum_comm, Finset.sum_div]
      apply Finset.sum_congr rfl
      intro kj _
      rw [Finset.sum_div]
      apply Finset.sum_congr rfl
      intro r _
      rw [div_pow]
    rw [hsum] at hcs
    apply le_trans hcs
    have hKsq : (1 : ℚ) ≤ K ^ 2 := by nlinarith
    have hdivle : corrKernel2 km kn k / K ^ 2 ≤ corrKernel2 km kn k :=
      div_le_self hK2 hKsq
    calc corrKernel2 km kn k / K ^ 2 * S2 ≤ corrKernel2 km kn k * S2 :=
        mul_le_mul_of_nonneg_right hdivle hS2
      _ = S2 * corrKernel2 km kn k := by ring


set_option maxHeartbeats 2000000 in
/-- Pointwise form of diag_trim. -/
theorem diag_trim_apply (d : Nat) (m : Nat → Nat → Option ℚ) (i j : Nat) :
    diag_trim d m i j = if d < j - i then some 0 else m i j := rfl


/-- C9 (amended): for a square signal, every finite stored value of the
correlation matrix corrcoef2d returns lies in [0, 1]; pixels where the
thresholded denominator vanishes under a stored numerator are non-finite
(inf in numpy, the none marker here) and are exhibited by the
counterexample. sqrtQ is constrained exactly on the values np.sqrt is
applied to. -/
theorem corrcoef2d_range (n km kn : Nat) (s k : F) (maxDist : Option Nat) (symUpper : Bool)
    (sqrtQ : ℚ → ℚ)
    (hkm : 0 < km) (hkm2 : km ≤ n) (hkn : 0 < kn) (hkn2 : kn ≤ n)
    (hpos : ∀ x, 0 ≤ sqrtQ x)
    (hsq : ∀ i j, sqrtQ (corrDenomSq n n km kn s k symUpper i j) ^ 2 =
      corrDenomSq n n km kn s k symUpper i j) :
    corrcoef2d n n km kn s k maxDist symUpper sqrtQ =
        Except.ok (corrcoef2dFun n n km kn s k maxDist symUpper sqrtQ) ∧
      ∀ i j v, corrcoef2dFun n n km kn s k maxDist symUpper sqrtQ i j = some v →
        0 ≤ v ∧ v ≤ 1 := by
  constructor
  · unfold corrcoef2d
    dsimp only
    rw [xcorr2_sq_ok n km kn _ _ _ hkm hkm2 hkn hkn2,
      xcorr2_sq_ok n km kn _ _ _ hkm hkm2 hkn hkn2,
      xcorr2_sq_ok n km kn _ _ _ hkm hkm2 hkn hkn2]
    rfl
  · intro i j v h
    unfold corrcoef2dFun at h
    dsimp only at h
    by_cases hij : i ≤ j
    · rw [if_pos hij] at h
      have hmain : ∀ a b,
          Option.map (fun x : ℚ => if x < 0 then 0 else x)
            (if xcorr2Fun n n km kn (if symUpper then mirrorSym km s else s)
                (fun r c => k r c / ((km * kn : Nat) : ℚ)) (1 / 10000) a b = 0
              then (some 0 : Option ℚ)
              else if sqrtQ (corrDenomSq n n km kn s k symUpper a b) = 0 then none
              else some (xcorr2Fun n n km kn (if symUpper then mirrorSym km s else s)
                  (fun r c => k r c / ((km * kn : Nat) : ℚ)) (1 / 10000) a b /
                sqrtQ (corrDenomSq n n km kn s k symUpper a b))) =
            some v → 0 ≤ v ∧ v ≤ 1 := by
        intro a b hab
        by_cases hc0 : xcorr2Fun n n km kn (if symUpper then mirrorSym km s else s)
            (fun r c => k r c / ((km * kn : Nat) : ℚ)) (1 / 10000) a b = 0
        · rw [if_pos hc0] at hab
          simp only [Option.map_some'] at hab
          rw [if_neg (by norm_num)] at hab
          obtain rfl : (0 : ℚ) = v := Option.some.inj hab
          norm_num
        · rw [if_neg hc0] at hab
          by_cases hd0 : sqrtQ (corrDenomSq n n km kn s k symUpper a b) = 0
          · rw [if_pos hd0] at hab
            simp only [Option.map_none'] at hab
            exact Option.noConfusion hab
          · rw [if_neg hd0] at hab
            simp only [Option.map_some'] at hab
            have hdpos : 0 < sqrtQ (corrDenomSq n n km kn s k symUpper a b) :=
              lt_of_le_of_ne (hpos _) (Ne.symm hd0)
            have hcpos : 0 < xcorr2Fun n n km kn (if symUpper then mirrorSym km s else s)
                (fun r c => k r c / ((km * kn : Nat) : ℚ)) (1 / 10000) a b := by
              rcases xcorr2Fun_zero_or_ge n n km kn (if symUpper then mirrorSym km s else s)
                  (fun r c => k r c / ((km * kn : Nat) : ℚ)) (1 / 10000) a b with hz | hge
              · exact absurd hz hc0
              · linarith
            have hd2 : sqrtQ (corrDenomSq n n km kn s k symUpper a b) ^ 2 =
                corrDenomSq n n km kn s k symUpper a b := hsq a b
            have hsig2ne : xcorr2Fun n n km kn
                (fun x y => ((if symUpper then mirrorSym km s else s) x y) ^ 2)
                (fun _ _ => 1) (1 / 10000) a b ≠ 0 := by
              intro hz
              apply hd0
              have hzero : corrDenomSq n n km kn s k symUpper a b = 0 := by
                unfold corrDenomSq
                dsimp only
                rw [hz, zero_mul]
              nlinarith [hd2, hpos (corrDenomSq n n km kn s k symUpper a b)]
            have hkey := numer_sq_le_denom n km kn (if symUpper then mirrorSym km s else s)
              k a b hkm hkm2 hkn hkn2 hc0 hsig2ne
            have hkey2 : xcorr2Fun n n km kn (if symUpper then mirrorSym km s else s)
                (fun r c => k r c / ((km * kn : Nat) : ℚ)) (1 / 10000) a b ^ 2 ≤
                sqrtQ (corrDenomSq n n km kn s k symUpper a b) ^ 2 := by
              rw [hd2]
              unfold corrDenomSq
              dsimp only
              exact hkey
            have hratio : xcorr2Fun n n km kn (if symUpper then mirrorSym km s else s)
                (fun r c => k r c / ((km * kn : Nat) : ℚ)) (1 / 10000) a b ≤
                sqrtQ (corrDenomSq n n km kn s k symUpper a b) := by nlinarith
            have hle1 : xcorr2Fun n n km kn (if symUpper then mirrorSym km s else s)
                (fun r c => k r c / ((km * kn : Nat) : ℚ)) (1 / 10000) a b /
                sqrtQ (corrDenomSq n n km kn s k symUpper a b) ≤ 1 :=
              (div_le_one hdpos).mpr hratio
            have hge0 : 0 ≤ xcorr2Fun n n km kn (if symUpper then mirrorSym km s else s)
                (fun r c => k r c / ((km * kn : Nat) : ℚ)) (1 / 10000) a b /
                sqrtQ (corrDenomSq n n km kn s k symUpper a b) :=
              le_of_lt (div_pos hcpos hdpos)
            by_cases hneg : xcorr2Fun n n km kn (if symUpper then mirrorSym km s else s)
                (fun r c => k r c / ((km * kn : Nat) : ℚ)) (1 / 10000) a b /
                sqrtQ (corrDenomSq n n km kn s k symUpper a b) < 0
            · rw [if_pos hneg] at hab
              obtain rfl : (0 : ℚ) = v := Option.some.inj hab
              norm_num
            · rw [if_neg hneg] at hab
              obtain rfl := Option.some.inj hab
              exact ⟨hge0, hle1⟩
      cases hmd : maxDist with
      | none =>
        rw [hmd] at h
        exact hmain i j h
      | some d =>
        rw [hmd] at h
        have h2 : diag_trim d (fun a b =>
            Option.map (fun x : ℚ => if x < 0 then 0 else x)
              (if xcorr2Fun n n km kn (if symUpper then mirrorSym km s else s)
                  (fun r c => k r c / ((km * kn : Nat) : ℚ)) (1 / 10000) a b = 0
                then (some 0 : Option ℚ)
                else if sqrtQ (corrDenomSq n n km kn s k symUpper a b) = 0 then none
                else some (xcorr2Fun n n km kn (if symUpper then mirrorSym km s else s)
                    (fun r c => k r c / ((km * kn : Nat) : ℚ)) (1 / 10000) a b /
                  sqrtQ (corrDenomSq n n km kn s k symUpper a b)))) i j = some v := h
        rw [diag_trim_apply] at h2
        by_cases htrim : d < j - i
        · rw [if_pos htrim] at h2
          obtain rfl : (0 : ℚ) = v := Option.some.inj h2
          norm_num
        · rw [if_neg htrim] at h2
          exact hmain i j h2
    · rw [if_neg hij] at h
      obtain rfl : (0 : ℚ) = v := Option.some.inj h
      norm_num


/-- C1: the sanity check of xcorr2 does not fail on a sparse signal with a
dense kernel wider than the signal (kn = 5 > sn = 3, km = 1 ≤ sm = 3): the
third check compares sn with itself (`(km > sm) or (sn > sn)`), so the
"cannot have kernel bigger than signal" error is unreachable for kernels
that only exceed the signal in width, contradicting the spec's InvalidInput
contract. -/
theorem xcorr2_sanity_misses_wide_kernel :
    xcorr2Checks true false 3 3 1 5 = none ∧ 5 > 3 := by
  constructor
  · rfl
  · decide


/-- C2 (counterexample): validate_patterns swaps the coordinates only for
the window and bounds computation; the returned table keeps the original
(row, col) = (7, 3) with row > col, refuting the claim that recorded
coordinates are canonicalized to row ≤ col. -/
theorem validate_patterns_keeps_unswapped_coords :
    (validate_patterns 12 12 (fun _ _ => 1)
        (fun i j => if i = 7 ∧ j = 3 then 1 / 2 else 0)
        (List.range 12) (List.range 12) 3 3 20 [(7, 3)]).1 = [(7, 3, 1 / 2)] ∧
      ¬ (7 : Nat) ≤ 3 := by
  constructor
  · norm_num [validate_patterns, validateOne, winRange, windowOf, nBadBins, List.filter,
      List.range', List.count, List.mem_range]
  · decide


/-- C2 (amended): every output row of validate_patterns satisfies
bin1 ≤ bin2 provided every input coordinate already does (as in the
pipeline, where the picker works on the upper triangle); the function
itself records the input coordinates unchanged. -/
theorem validate_patterns_row_le_col_of_sorted_input (sm sn : Nat) (mat conv : F)
    (dr dc : List Nat) (wh ww : Nat) (pct : ℚ) (coords : List (Nat × Nat))
    (h : ∀ c ∈ coords, c.1 ≤ c.2) :
    ∀ r ∈ (validate_patterns sm sn mat conv dr dc wh ww pct coords).1, r.1 ≤ r.2.1 := by
  intro r hr
  rw [validate_patterns_eq_filter] at hr
  dsimp only at hr
  rcases List.mem_map.mp hr with ⟨c, hc, hrc⟩
  have hcc : c ∈ coords := List.mem_of_mem_filter hc
  have hco := validateOne_row_coords sm sn mat conv dr dc wh ww pct c
  rw [← hrc, hco.1, hco.2]
  exact h c hcc


theorem validate_patterns_row_le_col_witness :
    (∀ c ∈ [((2 : Nat), (9 : Nat))], c.1 ≤ c.2) ∧
      ∀ r ∈ (validate_patterns 12 12 (fun _ _ => 1) (fun _ _ => (1 : ℚ)) (List.range 12)
          (List.range 12) 3 3 20 [(2, 9)]).1, r.1 ≤ r.2.1 :=
  ⟨by decide,
    validate_patterns_row_le_col_of_sorted_input 12 12 (fun _ _ => 1) (fun _ _ => (1 : ℚ))
      (List.range 12) (List.range 12) 3 3 20 [(2, 9)] (by decide)⟩


/-- C3 (counterexample): with three stored correlations at (3,3), (3,4)
and (8,8) and precision 0, all three pixels survive the threshold; the
isolated focus {(8,8)} is dropped by the size filter, leaving one
surviving focus, yet the picker returns two coordinate pairs — the
surviving focus representative (3,3) plus a (0,0) padding row from the
zero-initialised num_foci-sized array. -/
theorem picker_pads_with_zero_rows :
    picker [((3, 3), 1), ((3, 4), 1), ((8, 8), 1)] 0 = some [(3, 3), (0, 0)] ∧
      (uniqueSorted
        ((label_connected_pixels_sparse
            (pickerCandidates [((3, 3), 1), ((3, 4), 1), ((8, 8), 1)] 0) 2).2.map
          (fun pr => pr.2))).length = 1 := by
  constructor
  · norm_num [picker, pickerCandidates, medianQ, madQ, absQ, sortLe, insertLe, List.filter]
    decide
  · norm_num [pickerCandidates, medianQ, madQ, absQ, sortLe, insertLe, List.filter]
    decide


theorem picker_structure_witness :
    picker [((2, 2), (1 : ℚ)), ((2, 3), 1)] 0 =
      some (([1] : List Nat).map
          (chooseRep [((2, 2), (1 : ℚ)), ((2, 3), 1)] [((2, 2), 1), ((2, 3), 1)]) ++
        List.replicate (1 - ([1] : List Nat).length) (0, 0)) :=
  (picker_structure [((2, 2), (1 : ℚ)), ((2, 3), 1)] 0 [(2, 2), (2, 3)] 1
    [((2, 2), 1), ((2, 3), 1)] [1]
    (by norm_num [pickerCandidates, medianQ, madQ, absQ, sortLe, insertLe, List.filter])
    (by decide) (by decide) (by decide) (by decide)).1


/-- C4: explore_patterns does not guard the (None, None) sentinel of
pattern_detector: on a 2x2 contact map with a 3x3 kernel the detector
returns the sentinel and the loop immediately iterates over it
(`for new_coords in detected_coords`), raising a TypeError instead of
counting the pass as zero patterns and continuing. -/
theorem explore_patterns_crashes_on_none_sentinel :
    explore_patterns ⟨2, 2, fun _ _ => 1, 1, [], []⟩ ⟨1, 1, 10, 1, [(3, 3, fun _ _ => 1)]⟩
        (fun _ => 0) 4 =
      .error "TypeError: argument of type NoneType is not iterable" := by
  rfl


/-- C7 (counterexample): the candidate (1, 5) on a 10x10 all-ones matrix
with a 3x3 kernel has its window rows 0..2 and cols 4..6 fully inside the
matrix and missing fraction 0 < 50/100, yet validate_patterns rejects it
(the code needs p1 ≥ half_h = 2), so acceptance is not equivalent to
window containment plus the fraction test. -/
theorem validate_patterns_rejects_in_bounds_window :
    specWindowInBounds 10 10 2 2 1 5 ∧
      ((max
          (nBadBins (winRange 1 2) (List.range 10) * (winRange 5 2).length +
            nBadBins (winRange 5 2) (List.range 10) * (winRange 1 2).length -
            nBadBins (winRange 1 2) (List.range 10) * nBadBins (winRange 5 2) (List.range 10))
          ((windowOf (fun _ _ => (1 : ℚ)) (winRange 1 2) (winRange 5 2)).flatten.count 0) :
          Nat) : ℚ) /
          (((winRange 1 2).length * (winRange 5 2).length : Nat) : ℚ) < 50 / 100 ∧
      validate_patterns 10 10 (fun _ _ => 1) (fun _ _ => 1) (List.range 10) (List.range 10)
          3 3 50 [(1, 5)] = ([], []) := by
  refine ⟨by constructor <;> norm_num [specWindowInBounds], ?_, ?_⟩
  · norm_num [winRange, windowOf, nBadBins, List.range', List.count, List.mem_range,
      List.filter]
  · norm_num [validate_patterns, validateOne, List.filter]


/-- C8 (counterexample): on the non-square 2x3 signal with a single entry
at (0, 2) and the constant 1x1 kernel [[1]], the constant path silently
returns an empty matrix while the general path raises a shape mismatch
(its band operator uses sn where the signal has sm rows), so the two paths
do not produce the same result on every sparse signal. -/
theorem xcorr2_paths_differ_nonsquare :
    isConstK 1 1 (fun _ _ => (1 : ℚ)) = true ∧
      xcorr2GenPath 2 3 1 1 (fun i j => if i = 0 ∧ j = 2 then (1 : ℚ) else 0)
          (fun _ _ => 1) (1 / 10000) = .error "ValueError: inconsistent shapes" ∧
      xcorr2ConstPath 2 3 1 1 (fun i j => if i = 0 ∧ j = 2 then (1 : ℚ) else 0)
          ((fun _ _ : Nat => (1 : ℚ)) 0 0) (1 / 10000) = .ok (fun _ _ => 0) := by
  refine ⟨by norm_num [isConstK, absQ, Nat.lt_one_iff], by rfl, ?_⟩
  have hc : threshF (1 / 10000)
      (constEntries 2 3 1 1 (fun i j => if i = 0 ∧ j = 2 then (1 : ℚ) else 0) 1) =
      fun _ _ => 0 := by
    funext i j
    simp only [constEntries, threshF, Finset.sum_range_succ, Finset.sum_range_zero]
    split_ifs <;> norm_num <;> omega
  rw [show ((fun _ _ : Nat => (1 : ℚ)) 0 0) = 1 from rfl]
  rw [xcorr2ConstPath, hc, resizeStep]
  norm_num [resizeOkB]
  funext a b
  simp [resizeF]


/-- C9 (counterexample): on the 1x1 signal [[1/200]] with kernel [[1]],
the numerator convolution stores 1/200 (it survives the 1e-4 threshold)
but the squared-signal convolution 1/40000 is thresholded away, so the
stored correlation is divided by zero: numpy stores +inf — a stored value
outside [0, 1] — which the model marks as none. -/
theorem corrcoef2d_nonfinite_entry :
    xcorr2Fun 1 1 1 1 (fun _ _ => (1 : ℚ) / 200)
        (fun r c => (fun _ _ : Nat => (1 : ℚ)) r c / ((1 * 1 : Nat) : ℚ)) (1 / 10000) 0 0 =
        1 / 200 ∧
      corrcoef2dFun 1 1 1 1 (fun _ _ => (1 : ℚ) / 200) (fun _ _ => 1) none false
        (fun _ => 0) 0 0 = none := by
  constructor
  · norm_num [xcorr2Fun, isConstK, absQ, Nat.lt_one_iff, constEntries, threshF, resizeF,
      Finset.sum_range_succ]
  · norm_num [corrcoef2dFun, xcorr2Fun, isConstK, absQ, Nat.lt_one_iff, constEntries,
      threshF, resizeF, corrDenomSq, corrKernel2, Finset.sum_range_succ]


theorem corrcoef2d_range_witness : (0 : ℚ) ≤ 1 ∧ (1 : ℚ) ≤ 1 :=
  (corrcoef2d_range 1 1 1 (fun _ _ => 1) (fun _ _ => 1) none false
      (fun x => if x = 1 then 1 else 0) one_pos (le_refl 1) one_pos (le_refl 1)
      (fun x => by dsimp only; split_ifs <;> norm_num)
      (by
        intro i j
        rcases i with _ | i <;> rcases j with _ | j <;>
          norm_num [corrDenomSq, corrKernel2, xcorr2Fun, isConstK_ones, constEntries,
            threshF, resizeF, Finset.sum_range_succ])).2 0 0 1
    (by
      norm_num [corrcoef2dFun, xcorr2Fun, isConstK, absQ, Nat.lt_one_iff, constEntries,
        threshF, resizeF, corrDenomSq, corrKernel2, Finset.sum_range_succ])


theorem label_count_prefilter_witness :
    picker [((1, 1), (1 : ℚ)), ((1, 2), 1), ((5, 5), 1)] 0 = some [(1, 1), (0, 0)] ∧
      ([(1, 1), (0, 0)] : List Pix).length =
        (label_connected_pixels_sparse
          (pickerCandidates [((1, 1), (1 : ℚ)), ((1, 2), 1), ((5, 5), 1)] 0) 2).1 :=
  ⟨by
    norm_num [picker, pickerCandidates, medianQ, madQ, absQ, sortLe, insertLe, List.filter]
    decide,
    label_count_prefilter.2.2 [((1, 1), (1 : ℚ)), ((1, 2), 1), ((5, 5), 1)] 0 [(1, 1), (0, 0)]
      (by
        norm_num [picker, pickerCandidates, medianQ, madQ, absQ, sortLe, insertLe,
          List.filter]
        decide)⟩


end Chromosight
